import Mathlib

/-!
A shallow embedding of the rfsm hierarchical state machine engine.

This file embeds the core of the rfsm library — the validated `Definition`
(states, keyed transitions, hierarchy links), the Kahn-based topology of the
transition graph, and the generic runtime `Machine` (initial descent on start,
leaf-to-root event bubbling, LCA-based exit/action/entry sequencing with
rollback, snapshot/restore) — as executable Lean definitions, and proves
properties of the engine against them.

Modelling conventions:
* Go maps (`States`, `Transitions`, `visited`) become association lists /
  lists with first-match lookup; map-key uniqueness becomes `Nodup`
  hypotheses where a property needs it.  A missing map key yields Go's zero
  value; every lookup site translates that behaviour explicitly.
* User callbacks (entry/exit hooks, guards, actions) are arbitrary Lean
  functions of the event; the user context they receive and may mutate is
  absorbed into those closures, since no engine-state property depends on it.
  A hook or action returns `none` for success and `some msg` for an error,
  mirroring Go's `error` results; a guard returns `Bool`.
* Event argument payloads and the completion-channel wrapper used for
  synchronous dispatch are opaque plumbing stripped before `handleEvent`;
  events are represented by their name.  The single-dispatcher FIFO loop
  means a synchronous dispatch on an idle machine is exactly one
  `handleEvent` call, which is what `dispatch` models.
* The Go source climbs parent links and descends `InitialChild` links with
  unbounded loops; the embedding gives those loops `|states|` fuel.  Where a
  property needs the loop to terminate, a decidable side condition
  (`climbsToRoot`, `descentOk`) appears as a hypothesis.
* Hook invocations performed by an operation are reported in a `calls`
  trace so that "no hook runs" statements are expressible.
-/

namespace Rfsm

/-- Go: `type StateID = string`. -/
abbrev StateID := String

/-- Go: `type EventID = string`. -/
abbrev EventID := String

/-- Go: `Event{Name, Args}`; the opaque `Args` payload is absorbed into the
callback closures (see the header comment). -/
structure Event where
  name : EventID
  deriving Repr, DecidableEq

/-- Result of a user hook or action: `none` = Go `nil`, `some msg` = error. -/
abbrev HookResult := Option String

/-- Hook function: Go `HookFunc` with the context folded into the closure. -/
abbrev HookFn := Event → HookResult

/-- Guard function: Go `GuardFunc` with the context folded into the closure. -/
abbrev GuardFn := Event → Bool

/-- Action function: Go `ActionFunc` with the context folded into the closure. -/
abbrev ActionFn := Event → HookResult

/-- Go: `StateDef` (src/types.go).  The build-time `SubDef` pointer is
already merged away in a built definition and is omitted. -/
structure StateDef where
  id : StateID
  description : String := ""
  onEntry : Option HookFn := none
  onExit : Option HookFn := none
  parent : StateID := ""
  children : List StateID := []
  initialChild : StateID := ""
  initial : Bool := false
  final : Bool := false

/-- Go: `TransitionKey{From, Event}`; `From` is spelled `src` because `from`
is a Lean keyword. -/
structure TransitionKey where
  src : StateID
  event : EventID
  deriving Repr, DecidableEq

/-- Go: `TransitionDef{Key, To, Guard, Action}`; `To` is spelled `tgt`
because `to` is a Lean token. -/
structure TransitionDef where
  key : TransitionKey
  tgt : StateID
  guard : Option GuardFn := none
  action : Option ActionFn := none

/-- Go: `Definition` (src/types.go).  The `States` and `Transitions` maps
become lists of their entries; `OutgoingTransitions` is derived (see
`outgoingTransitions`). -/
structure Definition where
  name : String
  states : List StateDef
  transitions : List TransitionDef
  current : StateID

/-- Go map lookup `d.States[s]`, first match by id. -/
def findState (d : Definition) (s : StateID) : Option StateDef :=
  d.states.find? (fun st => st.id == s)

/-- Go map lookup `d.Transitions[TransitionKey{From: s, Event: ev}]`. -/
def findTransition (d : Definition) (s : StateID) (ev : EventID) : Option TransitionDef :=
  d.transitions.find? (fun t => t.key.src == s && t.key.event == ev)

/-- Go map lookup `d.Transitions[tk]`. -/
def findTransitionByKey (d : Definition) (tk : TransitionKey) : Option TransitionDef :=
  d.transitions.find? (fun t => t.key == tk)

/-- `m.def.States[s].Parent`: a missing state yields the zero `StateDef`,
whose parent is `""`. -/
def parentOf (d : Definition) (s : StateID) : StateID :=
  match findState d s with
  | some st => st.parent
  | none => ""

/-- `m.def.States[s].Children` with Go zero-value semantics. -/
def childrenOf (d : Definition) (s : StateID) : List StateID :=
  match findState d s with
  | some st => st.children
  | none => []

/-- `m.def.States[s].InitialChild` with Go zero-value semantics. -/
def initialChildOf (d : Definition) (s : StateID) : StateID :=
  match findState d s with
  | some st => st.initialChild
  | none => ""

/-- A state with no children (a missing state behaves as a leaf, matching the
`len(st.Children) == 0` break in the Go descent loops). -/
def isLeafState (d : Definition) (s : StateID) : Bool :=
  (childrenOf d s).isEmpty

/-- Fuel-bounded translation of `Machine.pathTo`: climb parent links from `s`
to the root and return the root-to-`s` path.  The Go loop is unbounded; the
fuel covers it whenever the parent chain reaches a top-level state, which the
`climbsToRoot` side condition certifies. -/
def pathToAux (d : Definition) : Nat → StateID → List StateID
  | 0, s => [s]
  | n + 1, s =>
    if parentOf d s = "" then [s]
    else pathToAux d n (parentOf d s) ++ [s]

/-- `Machine.pathTo` with the canonical fuel `|states|`. -/
def pathTo (d : Definition) (s : StateID) : List StateID :=
  pathToAux d d.states.length s

/-- Decidable certificate that the parent chain from `s` reaches a top-level
state within the given fuel. -/
def climbsAux (d : Definition) : Nat → StateID → Bool
  | 0, s => parentOf d s = ""
  | n + 1, s => parentOf d s = "" || climbsAux d n (parentOf d s)

/-- `climbsAux` at the canonical fuel. -/
def climbsToRoot (d : Definition) (s : StateID) : Bool :=
  climbsAux d d.states.length s

/-- Fuel-bounded translation of the `InitialChild` descent loop shared by
`Machine.Start` and `computeTransitionSequences`: the chain of initial
children strictly below `s`. -/
def descendChain (d : Definition) : Nat → StateID → List StateID
  | 0, _ => []
  | n + 1, s =>
    if isLeafState d s then []
    else initialChildOf d s :: descendChain d n (initialChildOf d s)

/-- The initial-configuration path computed by `Machine.Start`: the anchor
followed by its initial-child chain. -/
def initialDescent (d : Definition) (root : StateID) : List StateID :=
  root :: descendChain d d.states.length root

/-- Decidable certificate that the initial descent from the definition's
anchor actually ends at a leaf (the Go loop terminated rather than running
out of fuel). -/
def descentOk (d : Definition) : Bool :=
  isLeafState d ((initialDescent d d.current).getLastD d.current)

/-- Guard evaluation at a transition: `t.Guard == nil || t.Guard(e, ctx)`. -/
def guardOk (t : TransitionDef) (e : Event) : Bool :=
  match t.guard with
  | none => true
  | some g => g e

/-- Translation of the Go `Build` validation section
(src/src/definition.go): current defined, at least one initial and one final
state, transition endpoints defined with non-empty events and consistent
keys, composite states with a legal `InitialChild` and consistent children,
parents defined.  A built `Definition` satisfies this by construction. -/
def buildValidated (d : Definition) : Bool :=
  (findState d d.current).isSome &&
  d.states.any (fun st => st.initial) &&
  d.states.any (fun st => st.final) &&
  d.transitions.all (fun t =>
    (findState d t.key.src).isSome &&
    (findState d t.tgt).isSome &&
    t.key.event != "") &&
  d.states.all (fun st =>
    (if st.children.isEmpty then true
     else
       st.initialChild != "" &&
       st.children.contains st.initialChild &&
       st.children.all (fun c =>
         match findState d c with
         | some cst => cst.parent == st.id
         | none => false)) &&
    (if st.parent == "" then true else (findState d st.parent).isSome))

/-! ## Machine runtime (src/unnamed/part_001, generic `Machine[C]`) -/

/-- The typed error values of src/types.go.  `ErrHookFailed` and
`ErrActionFailed` are sentinels in Go (the hook's own message is not
wrapped), so they carry no payload here either. -/
inductive MErr
  | machineNotStarted
  | machineStopped
  | noTransition
  | hookFailed
  | actionFailed
  | multipleTransitions
  | noAvailableTransition
  deriving Repr, DecidableEq

/-- A single user-hook invocation, for the `calls` traces. -/
inductive HookCall
  | entry (s : StateID)
  | exit (s : StateID)
  deriving Repr, DecidableEq

/-- The argument record of a `notify` call: `notify(from, to, e, err)` with
the event dropped (its name is the dispatched event's name). -/
structure Notify where
  src : StateID
  dst : StateID
  err : Option MErr
  deriving Repr, DecidableEq

/-- Runtime state of `Machine[C]`: definition pointer plus the fields guarded
by `statusMu`.  The queue, shutdown channel and subscriber list are
concurrency plumbing (see the header comment). -/
structure Machine where
  defn : Definition
  current : StateID
  activePath : List StateID
  visited : List StateID
  started : Bool

/-- `NewMachine`: zeroed runtime over a definition. -/
def newMachine (d : Definition) : Machine :=
  { defn := d, current := "", activePath := [], visited := [], started := false }

/-- `m.visited[s] = true` on the visited set (map-key insertion). -/
def insertVisited (vs : List StateID) (s : StateID) : List StateID :=
  if s ∈ vs then vs else vs ++ [s]

/-- The entry hook of `s` evaluated at `e`, with Go zero-value semantics:
a missing state or a `nil` hook succeeds without running anything. -/
def entryHookResult (d : Definition) (s : StateID) (e : Event) : HookResult :=
  match findState d s with
  | some st =>
    match st.onEntry with
    | some h => h e
    | none => none
  | none => none

/-- The exit hook of `s` evaluated at `e`, Go zero-value semantics. -/
def exitHookResult (d : Definition) (s : StateID) (e : Event) : HookResult :=
  match findState d s with
  | some st =>
    match st.onExit with
    | some h => h e
    | none => none
  | none => none

/-- Whether `s` has an entry hook (`st.OnEntry != nil`). -/
def hasEntryHook (d : Definition) (s : StateID) : Bool :=
  match findState d s with
  | some st => st.onEntry.isSome
  | none => false

/-- Whether `s` has an exit hook (`st.OnExit != nil`). -/
def hasExitHook (d : Definition) (s : StateID) : Bool :=
  match findState d s with
  | some st => st.onExit.isSome
  | none => false

/-- The `Start` entry loop: run entry hooks along the path in order, marking
each state visited after its hook succeeds; stop at the first hook error,
returning it together with the visited states accumulated so far and the
hook calls made.  (Go marks `visited[sid]` after the hook call, so the
failing state is not marked.) -/
def runStartEntries (d : Definition) (vs : List StateID) :
    List StateID → Option String × List StateID × List HookCall
  | [] => (none, vs, [])
  | s :: rest =>
    if hasEntryHook d s then
      match entryHookResult d s { name := "" } with
      | some msg => (some msg, vs, [HookCall.entry s])
      | none =>
        let r := runStartEntries d (insertVisited vs s) rest
        (r.1, r.2.1, HookCall.entry s :: r.2.2)
    else
      let r := runStartEntries d (insertVisited vs s) rest
      (r.1, r.2.1, r.2.2)

/-- Result of `Start`. -/
structure StartResult where
  machine : Machine
  err : Option String
  calls : List HookCall

/-- `Machine.Start`: no-op when already started; otherwise compute the
initial descent from `definition.Current`, install `current`/`activePath`,
reset `visited`, set `started`, then run entry hooks root-to-leaf; on a hook
error clear `started` and surface the error verbatim, keeping the runtime
fields already written. -/
def start (m : Machine) : StartResult :=
  if m.started then { machine := m, err := none, calls := [] }
  else
    let d := m.defn
    let path := initialDescent d d.current
    let leaf := path.getLastD d.current
    let m1 : Machine :=
      { m with current := leaf, activePath := path, visited := [], started := true }
    match runStartEntries d [] path with
    | (some msg, vs, calls) =>
      { machine := { m1 with visited := vs, started := false }, err := some msg, calls := calls }
    | (none, vs, calls) =>
      { machine := { m1 with visited := vs }, err := none, calls := calls }

/-- The `Stop` exit loop: exit hooks leaf-to-root (the argument is the
already reversed path), returning the first error; later hooks are skipped
after an error, exactly as the Go loop returns early. -/
def runStopExits (d : Definition) : List StateID → Option String × List HookCall
  | [] => (none, [])
  | s :: rest =>
    if hasExitHook d s then
      match exitHookResult d s { name := "" } with
      | some msg => (some msg, [HookCall.exit s])
      | none =>
        let r := runStopExits d rest
        (r.1, HookCall.exit s :: r.2)
    else runStopExits d rest

/-- Result of `Stop` and of `RestoreSnapshot`. -/
structure LifecycleResult where
  machine : Machine
  err : Option String
  calls : List HookCall

/-- `Machine.Stop`: no-op when stopped; otherwise clear `started`, then run
exit hooks leaf-to-root along the active path, returning the first error
(the machine remains stopped either way). -/
def stop (m : Machine) : LifecycleResult :=
  if !m.started then { machine := m, err := none, calls := [] }
  else
    let m1 : Machine := { m with started := false }
    let r := runStopExits m.defn m.activePath.reverse
    { machine := m1, err := r.1, calls := r.2 }

/-- The bubble loop of `handleEvent`: walk the (already reversed, so
leaf-to-root) active path and return the first state whose `(state, event)`
transition exists with a passing (or absent) guard, together with that
transition. -/
def bubble (d : Definition) (e : Event) : List StateID → Option (StateID × TransitionDef)
  | [] => none
  | s :: rest =>
    match findTransition d s e.name with
    | some t => if guardOk t e then some (s, t) else bubble d e rest
    | none => bubble d e rest

/-- The common-prefix length of two paths: the Go LCA index loop. -/
def lcaIndex : List StateID → List StateID → Nat
  | a :: as, b :: bs => if a = b then lcaIndex as bs + 1 else 0
  | _, _ => 0

/-- `Machine.computeTransitionSequences`: exit sequence = the source's
root path below the LCA, deepest first; entry sequence = the target's root
path below the LCA (or just the target when the target path is a prefix of
the source path), extended by the target's initial-child chain. -/
def computeTransitionSequences (d : Definition) (src tgt : StateID) :
    List StateID × List StateID :=
  let fromPath := pathTo d src
  let toPath := pathTo d tgt
  let i := lcaIndex fromPath toPath
  let exitSeq := (fromPath.drop i).reverse
  let entrySeq := if i < toPath.length then toPath.drop i else [tgt]
  (exitSeq, entrySeq ++ descendChain d d.states.length tgt)

/-- The exit phase: run exit hooks along `exitSeq` in order; report whether
a hook failed and the calls made (later hooks are skipped after a failure). -/
def runExitPhase (d : Definition) (e : Event) : List StateID → Bool × List HookCall
  | [] => (true, [])
  | s :: rest =>
    if hasExitHook d s then
      match exitHookResult d s e with
      | some _ => (false, [HookCall.exit s])
      | none =>
        let r := runExitPhase d e rest
        (r.1, HookCall.exit s :: r.2)
    else runExitPhase d e rest

/-- The entry phase: run entry hooks along `entrySeq` in order; return the
first failing state (if any) and the calls made. -/
def runEntryPhase (d : Definition) (e : Event) : List StateID → Option StateID × List HookCall
  | [] => (none, [])
  | s :: rest =>
    if hasEntryHook d s then
      match entryHookResult d s e with
      | some _ => (some s, [HookCall.entry s])
      | none =>
        let r := runEntryPhase d e rest
        (r.1, HookCall.entry s :: r.2)
    else runEntryPhase d e rest

/-- Rollback after an action failure: re-enter the exited states in reverse
order (errors swallowed). -/
def actionRollbackCalls (d : Definition) (exitSeq : List StateID) : List HookCall :=
  (exitSeq.reverse.filter (fun s => hasEntryHook d s)).map HookCall.entry

/-- Rollback after an entry-phase failure at `sid`: the Go loop walks
`entrySeq` from its end backwards, exiting states until it reaches `sid`,
then re-enters the exited states in reverse order (errors swallowed). -/
def entryRollbackCalls (d : Definition) (entrySeq exitSeq : List StateID)
    (sid : StateID) : List HookCall :=
  ((entrySeq.reverse.takeWhile (fun x => x ≠ sid)).filter
      (fun s => hasExitHook d s)).map HookCall.exit ++
    actionRollbackCalls d exitSeq

/-- Everything observable about one `handleEvent` run: the new machine, the
returned error, the `notify` arguments (if `notify` ran), the selected
source/target, the computed sequences and the user-hook calls. -/
structure HandleResult where
  machine : Machine
  err : Option MErr
  notif : Option Notify
  source : Option StateID
  target : Option StateID
  exitSeq : List StateID
  entrySeq : List StateID
  calls : List HookCall

/-- A failure result that leaves the machine untouched. -/
def HandleResult.fail (m : Machine) (err : MErr) (notif : Option Notify)
    (source target : Option StateID) (exitSeq entrySeq : List StateID)
    (calls : List HookCall) : HandleResult :=
  { machine := m, err := some err, notif := notif, source := source,
    target := target, exitSeq := exitSeq, entrySeq := entrySeq, calls := calls }

/-- `Machine.handleEvent`: bubble leaf-to-root for a matching guarded
transition; compute exit/entry sequences across the LCA; run exit hooks,
the action (with re-entry rollback on failure), then entry hooks (with
rollback on failure); commit `current`, `activePath` and `visited` and
notify on success. -/
def handleEvent (m : Machine) (e : Event) : HandleResult :=
  if !m.started then HandleResult.fail m .machineStopped none none none [] [] []
  else
    let d := m.defn
    let leaf := m.current
    match bubble d e m.activePath.reverse with
    | none =>
      HandleResult.fail m .noTransition
        (some { src := leaf, dst := leaf, err := some .noTransition }) none none [] [] []
    | some (src, t) =>
      let seqs := computeTransitionSequences d src t.tgt
      let exitSeq := seqs.1
      let entrySeq := seqs.2
      let exitRun := runExitPhase d e exitSeq
      if !exitRun.1 then
        HandleResult.fail m .hookFailed
          (some { src := leaf, dst := leaf, err := some .hookFailed })
          (some src) (some t.tgt) exitSeq entrySeq exitRun.2
      else
        let actionRes : HookResult :=
          match t.action with
          | some a => a e
          | none => none
        match actionRes with
        | some _ =>
          HandleResult.fail m .actionFailed
            (some { src := leaf, dst := leaf, err := some .actionFailed })
            (some src) (some t.tgt) exitSeq entrySeq
            (exitRun.2 ++ actionRollbackCalls d exitSeq)
        | none =>
          let entryRun := runEntryPhase d e entrySeq
          match entryRun.1 with
          | some sid =>
            HandleResult.fail m .hookFailed
              (some { src := leaf, dst := leaf, err := some .hookFailed })
              (some src) (some t.tgt) exitSeq entrySeq
              (exitRun.2 ++ entryRun.2 ++ entryRollbackCalls d entrySeq exitSeq sid)
          | none =>
            let newLeaf := entrySeq.getLastD t.tgt
            let m2 : Machine :=
              { m with current := newLeaf,
                       activePath := pathTo d newLeaf,
                       visited := entrySeq.foldl insertVisited m.visited }
            { machine := m2, err := none,
              notif := some { src := leaf, dst := newLeaf, err := none },
              source := some src, target := some t.tgt,
              exitSeq := exitSeq, entrySeq := entrySeq,
              calls := exitRun.2 ++ entryRun.2 }

/-- Synchronous `Dispatch`: refuse when not started, otherwise the FIFO
dispatcher performs one `handleEvent` and hands back its result. -/
def dispatch (m : Machine) (e : Event) : HandleResult :=
  if !m.started then HandleResult.fail m .machineNotStarted none none none [] [] []
  else handleEvent m e

/-! ## Auto-advance (`Machine.Next`) -/

/-- Modelled from the spec: `outgoingIndex` is a "mapping StateId → ordered
sequence of TransitionKeys originating at that state (derived)".  The code
that populates `Definition.OutgoingTransitions` is not among the provided
sources — only its declaration in src/types.go and its consumer
`Machine.Next` are — so the derived index is taken from the spec's words:
the keys of the transitions whose source is the given state, in transition
order. -/
def outgoingTransitions (d : Definition) (s : StateID) : List TransitionKey :=
  (d.transitions.filter (fun t => t.key.src == s)).map (fun t => t.key)

/-- Outcome of the `Next` scan over the active path. -/
inductive NextScan
  | multiple
  | fire (tk : TransitionKey)
  | exhausted
  deriving Repr, DecidableEq

/-- The `Next` scan (the argument is the reversed, leaf-to-root active
path): skip states with no outgoing transitions; fail on more than one;
with exactly one, fire it if its guard (if any) admits the event-less
context, else continue to the parent.  `m.def.Transitions[tk]` on a missing
key yields the zero `TransitionDef`, whose `nil` guard passes. -/
def nextScan (d : Definition) : List StateID → NextScan
  | [] => .exhausted
  | s :: rest =>
    let outgoing := outgoingTransitions d s
    if outgoing.isEmpty then nextScan d rest
    else if outgoing.length > 1 then .multiple
    else
      let tk := outgoing.headD { src := "", event := "" }
      let pass :=
        match findTransitionByKey d tk with
        | some t => guardOk t { name := tk.event }
        | none => true
      if pass then .fire tk else nextScan d rest

/-- `Machine.Next`: refuse when not started; scan the active path leaf to
root; dispatch the found transition's event synchronously, or fail with
`MultipleTransitions` / `NoAvailableTransition`. -/
def next (m : Machine) : HandleResult :=
  if !m.started then HandleResult.fail m .machineNotStarted none none none [] [] []
  else
    match nextScan m.defn m.activePath.reverse with
    | .multiple => HandleResult.fail m .multipleTransitions none none none [] [] []
    | .exhausted => HandleResult.fail m .noAvailableTransition none none none [] [] []
    | .fire tk => dispatch m { name := tk.event }

/-! ## Snapshot and restore (src/src/definition.go) -/

/-- `Snapshot{Current, ActivePath, Visited}`. -/
structure Snapshot where
  current : StateID
  activePath : List StateID
  visited : List StateID
  deriving Repr, DecidableEq

/-- `Machine.Snapshot`: copy of the runtime fields (the Go `visited` map's
key set is its insertion list here). -/
def snapshot (m : Machine) : Snapshot :=
  { current := m.current, activePath := m.activePath, visited := m.visited }

/-- `Machine.RestoreSnapshot`: validate that the snapshot's current and path
states are known and that the path matches the hierarchy (`pathTo` of the
snapshot's current), then install `current`, `activePath` and `visited`,
mark `started` and restart the dispatcher — without running any hook.
The Go code performs no check of `m.started`. -/
def restore (m : Machine) (snap : Snapshot) : LifecycleResult :=
  if (findState m.defn snap.current).isNone then
    { machine := m, err := some "snapshot refers to unknown current state", calls := [] }
  else if snap.activePath.any (fun s => (findState m.defn s).isNone) then
    { machine := m, err := some "snapshot refers to unknown state in active path", calls := [] }
  else
    let expected := pathTo m.defn snap.current
    if expected.length ≠ snap.activePath.length then
      { machine := m, err := some "active path inconsistent with current", calls := [] }
    else if expected ≠ snap.activePath then
      { machine := m, err := some "active path does not match hierarchy", calls := [] }
    else
      { machine :=
          { m with current := snap.current,
                   activePath := snap.activePath,
                   visited := snap.visited.foldl insertVisited [],
                   started := true },
        err := none, calls := [] }

/-! ## Topology (`Definition.ComputeTopology`, Kahn's algorithm)

The Go code builds `adj` and `indeg` maps over all states (a transition
target absent from `States` is adopted as a node by `indeg[t.To]++`), seeds
a slice-backed stack with the zero-indegree nodes and pops from its tail.
Go map iteration order is unspecified; the embedding fixes one concrete
order (state declaration order, then transition order for adopted targets).
The queue is kept reversed — its head is the Go slice's tail — so pushing is
`cons` and popping is the head. -/

/-- The edge list of the transition graph: `From → To` per transition. -/
def edgesOf (d : Definition) : List (StateID × StateID) :=
  d.transitions.map (fun t => (t.key.src, t.tgt))

/-- The node set Kahn operates on: every declared state, plus any transition
target Go's `indeg[t.To]++` adopts. -/
def topoNodes (d : Definition) : List StateID :=
  d.transitions.foldl
    (fun acc t => if t.tgt ∈ acc then acc else acc ++ [t.tgt])
    (d.states.map (fun st => st.id))

/-- `adj[v]`: targets of `v`'s outgoing edges, in transition order. -/
def adjOf (E : List (StateID × StateID)) (v : StateID) : List StateID :=
  (E.filter (fun p => p.1 == v)).map (fun p => p.2)

/-- The initial indegree of `w` (Go builds it by `indeg[t.To]++`). -/
def indegInit (E : List (StateID × StateID)) (w : StateID) : Int :=
  ((E.filter (fun p => p.2 == w)).length : Int)

/-- The Kahn loop state: emitted order, pending stack (reversed: head =
Go's tail), and the current indegree map. -/
structure KahnState where
  order : List StateID
  q : List StateID
  indeg : StateID → Int

/-- Processing the adjacency batch of a popped node: decrement each target
once, pushing it the moment its indegree reaches zero. -/
def processTargets (indeg : StateID → Int) (q : List StateID) :
    List StateID → (StateID → Int) × List StateID
  | [] => (indeg, q)
  | w :: ws =>
    let indeg2 : StateID → Int := fun x => if x = w then indeg x - 1 else indeg x
    let q2 := if indeg2 w = 0 then w :: q else q
    processTargets indeg2 q2 ws

/-- The Kahn loop: pop, emit, relax the popped node's out-edges.  The Go
loop runs until the stack empties; under the invariants proved below,
`|nodes|` fuel always suffices. -/
def kahnLoop (adj : StateID → List StateID) : Nat → KahnState → KahnState
  | 0, st => st
  | fuel + 1, st =>
    match st.q with
    | [] => st
    | v :: rest =>
      let p := processTargets st.indeg rest (adj v)
      kahnLoop adj fuel { order := st.order ++ [v], q := p.2, indeg := p.1 }

/-- The seed stack: zero-indegree nodes, in node order (reversed
representation). -/
def kahnSeed (E : List (StateID × StateID)) (nodes : List StateID) : List StateID :=
  (nodes.filter (fun s => indegInit E s = 0)).reverse

/-- `Definition.ComputeTopology`: the emitted order when it covers every
node, `none` (Go: `ErrCycleDetected`) otherwise. -/
def computeTopology (d : Definition) : Option (List StateID) :=
  let E := edgesOf d
  let nodes := topoNodes d
  let final := kahnLoop (adjOf E) nodes.length
    { order := [], q := kahnSeed E nodes, indeg := indegInit E }
  if final.order.length = nodes.length then some final.order else none

/-- Transitive closure of the edge relation: a non-empty directed path. -/
inductive EdgePath (E : List (StateID × StateID)) : StateID → StateID → Prop
  | single {u v : StateID} : (u, v) ∈ E → EdgePath E u v
  | tail {u v w : StateID} : EdgePath E u v → (v, w) ∈ E → EdgePath E u w

/-- The transition graph is acyclic: no state lies on a non-empty cycle. -/
def AcyclicDef (d : Definition) : Prop :=
  ∀ s : StateID, ¬ EdgePath (edgesOf d) s s

/-! ## Basic lemmas about the embedded operations -/

theorem mem_insertVisited (vs : List StateID) (s x : StateID) :
    x ∈ insertVisited vs s ↔ x ∈ vs ∨ x = s := by
  unfold insertVisited
  split
  · rename_i hmem
    constructor
    · exact fun h => Or.inl h
    · rintro (h | rfl)
      · exact h
      · exact hmem
  · simp [or_comm]

theorem mem_foldl_insertVisited (l : List StateID) :
    ∀ (acc : List StateID) (x : StateID),
      x ∈ l.foldl insertVisited acc ↔ x ∈ acc ∨ x ∈ l := by
  induction l with
  | nil => simp
  | cons s rest ih =>
    intro acc x
    simp only [List.foldl_cons, ih, mem_insertVisited, List.mem_cons]
    tauto

theorem pathToAux_ne_nil (d : Definition) (n : Nat) (s : StateID) :
    pathToAux d n s ≠ [] := by
  cases n with
  | zero => simp [pathToAux]
  | succ n =>
    unfold pathToAux
    split
    · simp
    · simp

theorem pathToAux_getLastD (d : Definition) :
    ∀ (n : Nat) (s x : StateID), (pathToAux d n s).getLastD x = s := by
  intro n
  induction n with
  | zero => intro s x; simp [pathToAux]
  | succ n ih =>
    intro s x
    unfold pathToAux
    split
    · simp
    · simp [List.getLastD_concat]

theorem self_mem_pathToAux (d : Definition) :
    ∀ (n : Nat) (s : StateID), s ∈ pathToAux d n s := by
  intro n
  induction n with
  | zero => intro s; simp [pathToAux]
  | succ n _ =>
    intro s
    unfold pathToAux
    split
    · simp
    · simp

theorem climbsAux_mono (d : Definition) :
    ∀ (n m : Nat) (s : StateID), n ≤ m → climbsAux d n s = true → climbsAux d m s = true := by
  intro n
  induction n with
  | zero =>
    intro m s _ h
    simp only [climbsAux, decide_eq_true_eq] at h
    cases m with
    | zero => simp [climbsAux, h]
    | succ m => simp [climbsAux, h]
  | succ n ih =>
    intro m s hnm h
    cases m with
    | zero => omega
    | succ m =>
      simp only [climbsAux, Bool.or_eq_true] at h ⊢
      rcases h with h | h
      · exact Or.inl h
      · exact Or.inr (ih m (parentOf d s) (by omega) h)

theorem pathToAux_stable (d : Definition) :
    ∀ (n : Nat) (s : StateID), climbsAux d n s = true →
      ∀ (m : Nat), n ≤ m → pathToAux d m s = pathToAux d n s := by
  intro n
  induction n with
  | zero =>
    intro s h m _
    simp only [climbsAux, decide_eq_true_eq] at h
    cases m with
    | zero => rfl
    | succ m => simp [pathToAux, h]
  | succ n ih =>
    intro s h m hnm
    simp only [climbsAux, Bool.or_eq_true, decide_eq_true_eq] at h
    cases m with
    | zero => omega
    | succ m =>
      by_cases hp : parentOf d s = ""
      · simp [pathToAux, hp]
      · rcases h with h | h
        · exact absurd h hp
        · simp only [pathToAux, if_neg hp]
          rw [ih (parentOf d s) h m (by omega)]

/-- Every member of a terminating root path carries its own root path as an
initial segment (with the same fuel). -/
theorem pathToAux_append_of_mem (d : Definition) :
    ∀ (n : Nat) (s x : StateID), climbsAux d n s = true → x ∈ pathToAux d n s →
      climbsAux d n x = true ∧ ∃ rest, pathToAux d n s = pathToAux d n x ++ rest := by
  intro n
  induction n with
  | zero =>
    intro s x h hx
    simp only [pathToAux, List.mem_singleton] at hx
    subst hx
    exact ⟨h, [], by simp [pathToAux]⟩
  | succ n ih =>
    intro s x h hx
    by_cases hp : parentOf d s = ""
    · simp only [pathToAux, if_pos hp, List.mem_singleton] at hx
      subst hx
      exact ⟨h, [], by simp [pathToAux, hp]⟩
    · have hcl : climbsAux d n (parentOf d s) = true := by
        simp only [climbsAux, Bool.or_eq_true, decide_eq_true_eq] at h
        rcases h with h | h
        · exact absurd h hp
        · exact h
      simp only [pathToAux, if_neg hp, List.mem_append, List.mem_singleton] at hx
      rcases hx with hx | rfl
      · obtain ⟨hcx, rest, hrest⟩ := ih (parentOf d s) x hcl hx
        refine ⟨climbsAux_mono d n (n + 1) x (Nat.le_succ n) hcx, rest ++ [s], ?_⟩
        rw [pathToAux_stable d n x hcx (n + 1) (Nat.le_succ n)]
        simp only [pathToAux, if_neg hp, hrest, List.append_assoc]
      · exact ⟨h, [], by simp [pathToAux, if_neg hp]⟩

theorem getLastD_append_of_ne_nil {l r : List StateID} (h : r ≠ []) (x : StateID) :
    (l ++ r).getLastD x = r.getLastD x := by
  cases r with
  | nil => exact absurd rfl h
  | cons a t =>
    rw [List.getLastD_eq_getLast?, List.getLastD_eq_getLast?, List.getLast?_append]
    cases hq : (a :: t).getLast? with
    | none => simp [List.getLast?_eq_none_iff] at hq
    | some b => simp [Option.or]

theorem getLastD_mem {l : List StateID} (h : l ≠ []) (x : StateID) : l.getLastD x ∈ l := by
  induction l with
  | nil => exact absurd rfl h
  | cons a t ih =>
    cases ht : t with
    | nil => simp [List.getLastD_cons]
    | cons b u =>
      rw [List.getLastD_cons]
      subst ht
      exact List.mem_cons_of_mem a (ih (by simp))

/-- The current leaf is not on the bubbled source's root path when the
source sits strictly above it on a duplicate-free active path. -/
theorem leaf_not_mem_pathTo_src (d : Definition) (leaf src : StateID)
    (hclimb : climbsToRoot d leaf = true)
    (hnd : (pathTo d leaf).Nodup)
    (hsrc : src ∈ pathTo d leaf)
    (hne : src ≠ leaf) :
    leaf ∉ pathTo d src := by
  obtain ⟨_, rest, hrest⟩ :=
    pathToAux_append_of_mem d d.states.length leaf src hclimb hsrc
  have hrest2 : pathTo d leaf = pathTo d src ++ rest := hrest
  intro hmem
  have hlast : (pathTo d leaf).getLastD "" = leaf := pathToAux_getLastD d _ leaf ""
  cases hr : rest with
  | nil =>
    have heq : pathTo d leaf = pathTo d src := by rw [hrest2, hr, List.append_nil]
    have h1 : (pathTo d src).getLastD "" = src := pathToAux_getLastD d _ src ""
    rw [heq, h1] at hlast
    exact hne hlast
  | cons a t =>
    have hrn : rest ≠ [] := by simp [hr]
    have hleafrest : leaf ∈ rest := by
      have hgl : (pathTo d leaf).getLastD "" = rest.getLastD "" := by
        rw [hrest2]
        exact getLastD_append_of_ne_nil hrn ""
      rw [hlast] at hgl
      rw [hgl]
      exact getLastD_mem hrn ""
    have hnd2 : (pathTo d src ++ rest).Nodup := by rw [hrest2] at hnd; exact hnd
    exact (List.disjoint_of_nodup_append hnd2) hmem hleafrest

/-! ## Structural lemmas about `handleEvent` -/

/-- Whether some transition keyed `(s, e.name)` exists whose guard is absent
or returns true — the bubble-step admission test, in the spec's words. -/
def transitionAdmits (d : Definition) (s : StateID) (e : Event) : Bool :=
  match findTransition d s e.name with
  | some t => guardOk t e
  | none => false

theorem bubble_fst (d : Definition) (e : Event) :
    ∀ l : List StateID,
      (bubble d e l).map (fun x => x.1) = l.find? (fun s => transitionAdmits d s e) := by
  intro l
  induction l with
  | nil => rfl
  | cons s rest ih =>
    unfold bubble transitionAdmits
    cases hf : findTransition d s e.name with
    | some t =>
      by_cases hg : guardOk t e
      · simp [List.find?_cons, transitionAdmits, hf, hg]
      · simp only [hg, if_neg, Bool.false_eq_true, not_false_iff]
        rw [ih]
        simp [List.find?_cons, transitionAdmits, hf, hg]
    | none =>
      rw [ih]
      simp [List.find?_cons, transitionAdmits, hf]

theorem bubble_eq_some (d : Definition) (e : Event) :
    ∀ (l : List StateID) (s : StateID) (t : TransitionDef),
      bubble d e l = some (s, t) →
      findTransition d s e.name = some t ∧ guardOk t e = true ∧ s ∈ l := by
  intro l
  induction l with
  | nil => intro s t h; simp [bubble] at h
  | cons x rest ih =>
    intro s t h
    unfold bubble at h
    cases hf : findTransition d x e.name with
    | some t2 =>
      rw [hf] at h
      by_cases hg : guardOk t2 e
      · simp only [hg, if_true] at h
        obtain ⟨rfl, rfl⟩ : x = s ∧ t2 = t := by
          constructor <;> [exact congrArg Prod.fst (Option.some_injective _ h) ;
            exact congrArg Prod.snd (Option.some_injective _ h)]
        exact ⟨hf, hg, List.mem_cons_self x rest⟩
      · simp only [hg, Bool.false_eq_true, if_false] at h
        obtain ⟨h1, h2, h3⟩ := ih s t h
        exact ⟨h1, h2, List.mem_cons_of_mem x h3⟩
    | none =>
      rw [hf] at h
      obtain ⟨h1, h2, h3⟩ := ih s t h
      exact ⟨h1, h2, List.mem_cons_of_mem x h3⟩

/-- Either `handleEvent` failed and left the machine untouched, or it
succeeded and committed current/activePath/visited together. -/
theorem handleEvent_char (m : Machine) (e : Event) :
    ((handleEvent m e).err ≠ none ∧ (handleEvent m e).machine = m) ∨
    ((handleEvent m e).err = none ∧
      (handleEvent m e).machine.activePath =
        pathTo m.defn ((handleEvent m e).machine.current)) := by
  unfold handleEvent
  dsimp only
  split
  · exact Or.inl ⟨by simp [HandleResult.fail], rfl⟩
  · split
    · exact Or.inl ⟨by simp [HandleResult.fail], rfl⟩
    · split
      · exact Or.inl ⟨by simp [HandleResult.fail], rfl⟩
      · split
        · exact Or.inl ⟨by simp [HandleResult.fail], rfl⟩
        · split
          · exact Or.inl ⟨by simp [HandleResult.fail], rfl⟩
          · exact Or.inr ⟨rfl, rfl⟩

theorem handleEvent_machine_of_err (m : Machine) (e : Event)
    (h : (handleEvent m e).err ≠ none) : (handleEvent m e).machine = m := by
  rcases handleEvent_char m e with ⟨_, hm⟩ | ⟨he, _⟩
  · exact hm
  · exact absurd he h

/-- On success `handleEvent` commits `activePath` to the root path of the
new current leaf. -/
theorem handleEvent_commit (m : Machine) (e : Event)
    (h : (handleEvent m e).err = none) :
    (handleEvent m e).machine.activePath =
      pathTo m.defn ((handleEvent m e).machine.current) := by
  rcases handleEvent_char m e with ⟨he, _⟩ | ⟨_, hp⟩
  · exact absurd h he
  · exact hp

/-- With the machine started, `handleEvent`'s selected source is the bubble
result's first component. -/
theorem handleEvent_source_eq (m : Machine) (e : Event) (hs : m.started = true) :
    (handleEvent m e).source =
      (bubble m.defn e m.activePath.reverse).map (fun x => x.1) := by
  unfold handleEvent
  dsimp only
  rw [if_neg (by simp [hs])]
  split
  · rename_i heq
    rw [heq]
    rfl
  · rename_i src t heq
    rw [heq]
    split
    · rfl
    · split
      · rfl
      · split
        · rfl
        · rfl

/-- With the machine started, `handleEvent`'s tentative target is the
bubbled transition's target. -/
theorem handleEvent_target_eq (m : Machine) (e : Event) (hs : m.started = true) :
    (handleEvent m e).target =
      (bubble m.defn e m.activePath.reverse).map (fun x => x.2.tgt) := by
  unfold handleEvent
  dsimp only
  rw [if_neg (by simp [hs])]
  split
  · rename_i heq
    rw [heq]
    rfl
  · rename_i src t heq
    rw [heq]
    split
    · rfl
    · split
      · rfl
      · split
        · rfl
        · rfl

/-- With the machine started, the exit and entry sequences of `handleEvent`
are the ones computed by `computeTransitionSequences` for the bubbled
source and target. -/
theorem handleEvent_seqs_eq (m : Machine) (e : Event) (hs : m.started = true) :
    ((handleEvent m e).exitSeq, (handleEvent m e).entrySeq) =
      (match bubble m.defn e m.activePath.reverse with
       | none => ([], [])
       | some (s, t) => computeTransitionSequences m.defn s t.tgt) := by
  unfold handleEvent
  dsimp only
  rw [if_neg (by simp [hs])]
  split
  · rfl
  · rename_i src t heq
    split
    · rfl
    · split
      · rfl
      · split
        · rfl
        · rfl

/-- With the machine started and no admissible transition on the active
path, `handleEvent` reports `NoTransition` and notifies with the current
leaf as both endpoints. -/
theorem handleEvent_noTransition (m : Machine) (e : Event) (hs : m.started = true)
    (hb : bubble m.defn e m.activePath.reverse = none) :
    (handleEvent m e).err = some MErr.noTransition ∧
    (handleEvent m e).notif =
      some { src := m.current, dst := m.current, err := some MErr.noTransition } := by
  unfold handleEvent
  dsimp only
  rw [if_neg (by simp [hs])]
  split
  · exact ⟨rfl, rfl⟩
  · rename_i src t heq
    rw [hb] at heq
    simp at heq

/-! ## Concrete example definitions (used by witnesses and counterexamples) -/

/-- The flat turnstile of the test suite: `coin : Locked → Unlocked`,
`push : Unlocked → Locked`. -/
def dTurn : Definition :=
  { name := "turnstile"
    states := [ { id := "Locked", initial := true }, { id := "Unlocked", final := true } ]
    transitions :=
      [ { key := { src := "Locked", event := "coin" }, tgt := "Unlocked" }
      , { key := { src := "Unlocked", event := "push" }, tgt := "Locked" } ]
    current := "Locked" }

/-- A hierarchy where bubbling happens above the leaf: composite `P` with
initial child `C`, top-level `B`, and the only transition keyed at `P`. -/
def dHier : Definition :=
  { name := "h"
    states :=
      [ { id := "P", children := ["C"], initialChild := "C", initial := true }
      , { id := "C", parent := "P" }
      , { id := "B", final := true } ]
    transitions := [ { key := { src := "P", event := "go" }, tgt := "B" } ]
    current := "P" }

/-- The action-rollback scenario of the test suite: `go : A → B` with an
always-failing action. -/
def dActFail : Definition :=
  { name := "r"
    states :=
      [ { id := "A", onEntry := some (fun _ => none), onExit := some (fun _ => none),
          initial := true }
      , { id := "B", onEntry := some (fun _ => none), final := true } ]
    transitions :=
      [ { key := { src := "A", event := "go" }, tgt := "B",
          action := some (fun _ => some "boom") } ]
    current := "A" }

/-- A transition into a state whose entry hook always fails. -/
def dEntryFail : Definition :=
  { name := "ef"
    states :=
      [ { id := "A", initial := true }
      , { id := "B", onEntry := some (fun _ => some "entry failed"), final := true } ]
    transitions := [ { key := { src := "A", event := "go" }, tgt := "B" } ]
    current := "A" }

/-- A build-valid definition whose `current` anchor is a nested state. -/
def dNested : Definition :=
  { name := "n"
    states :=
      [ { id := "A", children := ["A1"], initialChild := "A1", initial := true }
      , { id := "A1", parent := "A", final := true } ]
    transitions := []
    current := "A1" }

/-- A two-level initial descent whose second entry hook fails. -/
def dStartFail : Definition :=
  { name := "sf"
    states :=
      [ { id := "R", children := ["K"], initialChild := "K", initial := true }
      , { id := "K", parent := "R", onEntry := some (fun _ => some "boom k"), final := true } ]
    transitions := []
    current := "R" }

/-- The diamond DAG of the topology tests. -/
def dDag : Definition :=
  { name := "dag"
    states :=
      [ { id := "A", initial := true }, { id := "B" }, { id := "C" }
      , { id := "D", final := true } ]
    transitions :=
      [ { key := { src := "A", event := "ab" }, tgt := "B" }
      , { key := { src := "A", event := "ac" }, tgt := "C" }
      , { key := { src := "B", event := "bd" }, tgt := "D" }
      , { key := { src := "C", event := "cd" }, tgt := "D" } ]
    current := "A" }

/-- The two-state cycle of the topology tests. -/
def dCyc : Definition :=
  { name := "cyc"
    states := [ { id := "A", initial := true }, { id := "B", final := true } ]
    transitions :=
      [ { key := { src := "A", event := "ab" }, tgt := "B" }
      , { key := { src := "B", event := "ba" }, tgt := "A" } ]
    current := "A" }

/-- The turnstile machine right after `start()`. -/
def mTurn : Machine := (start (newMachine dTurn)).machine

/-- The turnstile machine after `start()` and a successful `coin` dispatch. -/
def mTurnB : Machine := (dispatch mTurn { name := "coin" }).machine

/-- The hierarchy machine right after `start()` (active path `[P, C]`). -/
def mHier : Machine := (start (newMachine dHier)).machine

/-- The nested-anchor machine right after `start()` (running, with active
path `[A1]` although `pathTo A1 = [A, A1]`). -/
def mNested : Machine := (start (newMachine dNested)).machine

/-- The action-failure machine right after `start()`. -/
def mActFail : Machine := (start (newMachine dActFail)).machine

/-- The entry-failure machine right after `start()`. -/
def mEntryFail : Machine := (start (newMachine dEntryFail)).machine

/-! ## Claim theorems -/

/-- Claim C2: for every dispatch that fails with `ActionFailed` or with
`HookFailed`, the machine's `current()` and `currentPath()` after the
dispatch equal their pre-dispatch values, and `visited` contains no state
that was only provisionally entered during that dispatch (it is unchanged).
This covers in particular every entry-phase `HookFailed`. -/
theorem transition_atomicity (m : Machine) (e : Event)
    (h : (dispatch m e).err = some MErr.actionFailed ∨
         (dispatch m e).err = some MErr.hookFailed) :
    (dispatch m e).machine.current = m.current ∧
    (dispatch m e).machine.activePath = m.activePath ∧
    (dispatch m e).machine.visited = m.visited := by
  by_cases hs : m.started
  · have hd : dispatch m e = handleEvent m e := by
      unfold dispatch
      rw [if_neg (by simp [hs])]
    rw [hd] at h ⊢
    have hne : (handleEvent m e).err ≠ none := by
      rcases h with h | h <;> simp [h]
    have hm := handleEvent_machine_of_err m e hne
    rw [hm]
    exact ⟨rfl, rfl, rfl⟩
  · have hd : dispatch m e =
        HandleResult.fail m .machineNotStarted none none none [] [] [] := by
      unfold dispatch
      rw [if_pos (by simp [hs])]
    rw [hd] at h
    exfalso
    rcases h with h | h <;> simp [HandleResult.fail] at h

theorem transition_atomicity_witness :
    ((dispatch mActFail { name := "go" }).err = some MErr.actionFailed ∨
      (dispatch mActFail { name := "go" }).err = some MErr.hookFailed) ∧
    ((dispatch mActFail { name := "go" }).machine.current = mActFail.current ∧
     (dispatch mActFail { name := "go" }).machine.activePath = mActFail.activePath ∧
     (dispatch mActFail { name := "go" }).machine.visited = mActFail.visited) :=
  ⟨Or.inl (by decide), transition_atomicity mActFail { name := "go" } (Or.inl (by decide))⟩

/-- Claim C6: for every dispatched event with the machine started, the
selected source is the first state, scanning the active path leaf to root,
whose `(state, event)` transition exists with an absent or passing guard;
its descriptor's target is the tentative target; and when no such state
exists the dispatch returns `NoTransition` and the subscriber notification
carries the current leaf as both endpoints. -/
theorem source_selection (m : Machine) (e : Event) (hs : m.started = true) :
    (handleEvent m e).source =
      m.activePath.reverse.find? (fun s => transitionAdmits m.defn s e) ∧
    (m.activePath.reverse.find? (fun s => transitionAdmits m.defn s e) = none →
      (handleEvent m e).err = some MErr.noTransition ∧
      (handleEvent m e).notif =
        some { src := m.current, dst := m.current, err := some MErr.noTransition }) ∧
    (∀ s, m.activePath.reverse.find? (fun s2 => transitionAdmits m.defn s2 e) = some s →
      (handleEvent m e).target = (findTransition m.defn s e.name).map (fun t => t.tgt)) := by
  refine ⟨?_, ?_, ?_⟩
  · rw [handleEvent_source_eq m e hs, bubble_fst]
  · intro hnone
    have hb : bubble m.defn e m.activePath.reverse = none := by
      have := bubble_fst m.defn e m.activePath.reverse
      rw [hnone] at this
      exact Option.map_eq_none'.mp this
    exact handleEvent_noTransition m e hs hb
  · intro s hfind
    have hmap := bubble_fst m.defn e m.activePath.reverse
    rw [hfind] at hmap
    obtain ⟨⟨s2, t⟩, hb, hst⟩ := Option.map_eq_some'.mp hmap
    dsimp only at hst
    subst hst
    obtain ⟨hft, _, _⟩ := bubble_eq_some m.defn e _ s2 t hb
    rw [handleEvent_target_eq m e hs, hb, hft]
    rfl

theorem source_selection_witness :
    mTurn.started = true ∧
    (handleEvent mTurn { name := "coin" }).source =
      mTurn.activePath.reverse.find?
        (fun s => transitionAdmits mTurn.defn s { name := "coin" }) :=
  ⟨by decide, (source_selection mTurn { name := "coin" } (by decide)).1⟩

/-- Claim C9 (failing input): `RestoreSnapshot` performs no `started` check.
Invoked on a machine that is currently started (the turnstile after a
successful `coin` dispatch, restoring its own snapshot), it does not refuse:
it validates only the snapshot contents, reports success, and installs the
snapshot state over the running dispatcher. -/
theorem restore_on_started_machine :
    mTurnB.started = true ∧
    (restore mTurnB (snapshot mTurnB)).err = none ∧
    (restore mTurnB (snapshot mTurnB)).machine.started = true ∧
    (restore mTurnB (snapshot mTurnB)).machine.current = "Unlocked" := by
  decide

/-! ## `Start` characterization and claims C5, C10 -/

theorem dispatch_not_started (m : Machine) (e : Event) (h : m.started = false) :
    (dispatch m e).err = some MErr.machineNotStarted := by
  unfold dispatch
  rw [if_pos (by simp [h])]
  rfl

theorem hasEntryHook_of_result (d : Definition) (s : StateID) (e : Event) (msg : String)
    (h : entryHookResult d s e = some msg) : hasEntryHook d s = true := by
  unfold entryHookResult at h
  unfold hasEntryHook
  rcases hf : findState d s with _ | st <;> rw [hf] at h <;> dsimp only at h ⊢
  · simp at h
  · rcases ho : st.onEntry with _ | hook
    · rw [ho] at h
      simp at h
    · rfl

theorem start_char (m : Machine) (h0 : m.started = false) :
    (start m).machine.current =
      (initialDescent m.defn m.defn.current).getLastD m.defn.current ∧
    (start m).machine.activePath = initialDescent m.defn m.defn.current ∧
    (start m).err = (runStartEntries m.defn [] (initialDescent m.defn m.defn.current)).1 ∧
    (start m).machine.visited =
      (runStartEntries m.defn [] (initialDescent m.defn m.defn.current)).2.1 ∧
    (start m).machine.started =
      (runStartEntries m.defn [] (initialDescent m.defn m.defn.current)).1.isNone ∧
    (start m).machine.defn = m.defn := by
  unfold start
  rw [if_neg (by simp [h0])]
  dsimp only
  rcases he : runStartEntries m.defn [] (initialDescent m.defn m.defn.current) with ⟨err, vs, calls⟩
  rcases err with _ | msg <;> exact ⟨rfl, rfl, rfl, rfl, rfl, rfl⟩

theorem runStartEntries_fail (d : Definition) :
    ∀ (l vs : List StateID) (k : Nat) (msg : String),
      k < l.length →
      entryHookResult d (l.getD k "") { name := "" } = some msg →
      (∀ j, j < k → entryHookResult d (l.getD j "") { name := "" } = none) →
      (runStartEntries d vs l).1 = some msg ∧
      (∀ x, x ∈ (runStartEntries d vs l).2.1 ↔ x ∈ vs ∨ x ∈ l.take k) := by
  intro l
  induction l with
  | nil =>
    intro vs k msg hk
    simp at hk
  | cons s rest ih =>
    intro vs k msg hk hfail hbefore
    cases k with
    | zero =>
      have hs : entryHookResult d s { name := "" } = some msg := by
        simpa using hfail
      have hh : hasEntryHook d s = true := hasEntryHook_of_result d s _ msg hs
      unfold runStartEntries
      rw [if_pos hh, hs]
      exact ⟨rfl, by simp⟩
    | succ k =>
      have hs0 : entryHookResult d s { name := "" } = none := by
        simpa using hbefore 0 (Nat.succ_pos k)
      have hk2 : k < rest.length := by simpa using hk
      have hfail2 : entryHookResult d (rest.getD k "") { name := "" } = some msg := by
        simpa using hfail
      have hbefore2 : ∀ j, j < k →
          entryHookResult d (rest.getD j "") { name := "" } = none := by
        intro j hj
        simpa using hbefore (j + 1) (by omega)
      unfold runStartEntries
      by_cases hh : hasEntryHook d s = true
      · rw [if_pos hh, hs0]
        obtain ⟨h1, h2⟩ := ih (insertVisited vs s) k msg hk2 hfail2 hbefore2
        refine ⟨h1, fun x => ?_⟩
        rw [h2 x, mem_insertVisited]
        simp only [List.take_succ_cons, List.mem_cons]
        tauto
      · rw [if_neg hh]
        obtain ⟨h1, h2⟩ := ih (insertVisited vs s) k msg hk2 hfail2 hbefore2
        refine ⟨h1, fun x => ?_⟩
        rw [h2 x, mem_insertVisited]
        simp only [List.take_succ_cons, List.mem_cons]
        tauto

/-- Claim C10: if an entry hook fails at position `k` of the initial
descent during `start()`, then `start()` surfaces that hook's error
verbatim, the machine reports not-started (so dispatch is refused), yet
`current` and `activePath` already hold the full initial configuration, and
`visited` holds exactly the states of the initial path before the failing
one. -/
theorem start_entry_hook_failure (m : Machine) (k : Nat) (msg : String)
    (h0 : m.started = false)
    (hk : k < (initialDescent m.defn m.defn.current).length)
    (hfail : entryHookResult m.defn
      ((initialDescent m.defn m.defn.current).getD k "") { name := "" } = some msg)
    (hbefore : ∀ j, j < k → entryHookResult m.defn
      ((initialDescent m.defn m.defn.current).getD j "") { name := "" } = none) :
    (start m).err = some msg ∧
    (start m).machine.started = false ∧
    (∀ e, (dispatch (start m).machine e).err = some MErr.machineNotStarted) ∧
    (start m).machine.current =
      (initialDescent m.defn m.defn.current).getLastD m.defn.current ∧
    (start m).machine.activePath = initialDescent m.defn m.defn.current ∧
    (∀ x, x ∈ (start m).machine.visited ↔
      x ∈ (initialDescent m.defn m.defn.current).take k) := by
  obtain ⟨hc, hp, he, hv, hst, _⟩ := start_char m h0
  obtain ⟨h1, h2⟩ := runStartEntries_fail m.defn
    (initialDescent m.defn m.defn.current) [] k msg hk hfail hbefore
  have herr : (start m).err = some msg := by rw [he, h1]
  have hstf : (start m).machine.started = false := by rw [hst, h1]; rfl
  refine ⟨herr, hstf, fun e => dispatch_not_started _ e hstf, hc, hp, fun x => ?_⟩
  rw [hv, h2 x]
  simp

theorem start_entry_hook_failure_witness :
    ((newMachine dStartFail).started = false ∧
      1 < (initialDescent dStartFail dStartFail.current).length ∧
      entryHookResult dStartFail
        ((initialDescent dStartFail dStartFail.current).getD 1 "") { name := "" } =
        some "boom k") ∧
    (start (newMachine dStartFail)).err = some "boom k" ∧
    (start (newMachine dStartFail)).machine.started = false ∧
    (start (newMachine dStartFail)).machine.activePath =
      initialDescent dStartFail dStartFail.current :=
  have h := start_entry_hook_failure (newMachine dStartFail) 1 "boom k"
    (by decide) (by decide) (by decide)
    (by
      intro j hj
      interval_cases j
      decide)
  ⟨⟨by decide, by decide, by decide⟩, h.1, h.2.1, h.2.2.2.2.1⟩

/-- The sequence the spec describes for the initial configuration: start at
`definition.current` and repeatedly append the composite's `initialChild`
until a leaf (a state with no children) is reached. -/
def specDescentAux (d : Definition) : Nat → StateID → List StateID
  | 0, s => [s]
  | n + 1, s =>
    if isLeafState d s then [s]
    else s :: specDescentAux d n (initialChildOf d s)

/-- The spec-worded initial configuration sequence. -/
def specDescent (d : Definition) : List StateID :=
  specDescentAux d d.states.length d.current

theorem initialDescent_eq_spec (d : Definition) :
    ∀ (n : Nat) (s : StateID), s :: descendChain d n s = specDescentAux d n s := by
  intro n
  induction n with
  | zero => intro s; rfl
  | succ n ih =>
    intro s
    unfold descendChain specDescentAux
    by_cases h : isLeafState d s
    · simp [h]
    · simp only [if_neg h]
      rw [← ih (initialChildOf d s)]

/-- Claim C5: after a successful `start()` of a stopped machine (whose
initial descent terminates at a leaf), `currentPath()` equals the sequence
obtained by starting at `definition.current` and repeatedly appending the
composite's `initialChild` until a leaf is reached, and `current()` is that
leaf. -/
theorem start_initial_descent (m : Machine)
    (h0 : m.started = false) (h1 : (start m).err = none)
    (h2 : descentOk m.defn = true) :
    (start m).machine.activePath = specDescent m.defn ∧
    (start m).machine.current = (specDescent m.defn).getLastD m.defn.current ∧
    isLeafState m.defn ((start m).machine.current) = true ∧
    (start m).machine.started = true := by
  obtain ⟨hc, hp, he, _, hst, _⟩ := start_char m h0
  have hspec : initialDescent m.defn m.defn.current = specDescent m.defn := by
    unfold initialDescent specDescent
    exact initialDescent_eq_spec m.defn m.defn.states.length m.defn.current
  have hleaf : isLeafState m.defn ((start m).machine.current) = true := by
    rw [hc]
    exact h2
  refine ⟨by rw [hp, hspec], by rw [hc, hspec], hleaf, ?_⟩
  rw [hst, ← he, h1]
  rfl

theorem start_initial_descent_witness :
    ((newMachine dHier).started = false ∧
      (start (newMachine dHier)).err = none ∧ descentOk dHier = true) ∧
    (start (newMachine dHier)).machine.activePath = specDescent dHier ∧
    (start (newMachine dHier)).machine.current =
      (specDescent dHier).getLastD dHier.current :=
  have h := start_initial_descent (newMachine dHier) (by decide) (by decide) (by decide)
  ⟨⟨by decide, by decide, by decide⟩, h.1, h.2.1⟩

/-! ## Claim C4: snapshot round trip -/

/-- Claim C4 (counterexample): the machine started from the build-valid
nested anchor `A1` is running with `activePath = [A1]`, but
`pathTo A1 = [A, A1]`, so `RestoreSnapshot`'s consistency check rejects the
machine's own snapshot ("active path inconsistent with current") and the
freshly constructed machine stays stopped — the round-trip fails for this
running machine. -/
theorem snapshot_roundtrip_counterexample :
    buildValidated dNested = true ∧
    (start (newMachine dNested)).err = none ∧
    mNested.started = true ∧
    mNested.activePath = ["A1"] ∧
    pathTo dNested mNested.current = ["A", "A1"] ∧
    (restore (newMachine dNested) (snapshot mNested)).err =
      some "active path inconsistent with current" ∧
    (restore (newMachine dNested) (snapshot mNested)).machine.started = false ∧
    (restore (newMachine dNested) (snapshot mNested)).machine.current ≠
      mNested.current := by
  decide

/-- Claim C4 (amended): taking `snapshot()` on a running machine whose runtime state
is hierarchy-consistent, stopping it, and restoring the snapshot into a
freshly constructed machine over the same `Definition` succeeds and yields
the same `current`, the same `currentPath`, and the same `visited` set as at
snapshot time, with `started` set — and the restore invokes no entry hook
(its hook-call trace is empty, while `stop` leaves the snapshotted fields
untouched).  The hierarchy-consistency hypothesis `activePath = pathTo
current` is forced by the counterexample above: restore re-derives the
expected path from `current` and refuses any snapshot disagreeing with it,
so machines started from a nested anchor are excluded. -/
theorem snapshot_roundtrip (m : Machine)
    (h1 : m.started = true)
    (h2 : m.activePath = pathTo m.defn m.current)
    (h3 : ∀ s ∈ m.activePath, (findState m.defn s).isSome = true) :
    ((stop m).machine.started = false ∧
     (stop m).machine.current = m.current ∧
     (stop m).machine.visited = m.visited) ∧
    (restore (newMachine m.defn) (snapshot m)).err = none ∧
    (restore (newMachine m.defn) (snapshot m)).machine.current = m.current ∧
    (restore (newMachine m.defn) (snapshot m)).machine.activePath = m.activePath ∧
    (∀ s, s ∈ (restore (newMachine m.defn) (snapshot m)).machine.visited ↔
      s ∈ m.visited) ∧
    (restore (newMachine m.defn) (snapshot m)).machine.started = true ∧
    (restore (newMachine m.defn) (snapshot m)).calls = [] := by
  have hstop : (stop m).machine = { m with started := false } := by
    unfold stop
    rw [if_neg (by simp [h1])]
  have hcurmem : m.current ∈ m.activePath := by
    rw [h2]
    exact self_mem_pathToAux m.defn m.defn.states.length m.current
  have hc1 : (findState m.defn m.current).isNone = false := by
    have := h3 m.current hcurmem
    simp [Option.isNone_eq_false_iff, ← Option.isSome_iff_ne_none, this]
  have hc2 : (m.activePath.any fun s => (findState m.defn s).isNone) = false := by
    rw [List.any_eq_false]
    intro s hs
    have := h3 s hs
    simp [Option.isNone_eq_false_iff, ← Option.isSome_iff_ne_none, this]
  have hrestore : restore (newMachine m.defn) (snapshot m) =
      { machine :=
          { defn := m.defn, current := m.current, activePath := m.activePath,
            visited := m.visited.foldl insertVisited [], started := true },
        err := none, calls := [] } := by
    unfold restore snapshot newMachine
    dsimp only
    rw [hc1, hc2]
    rw [if_neg (by simp), if_neg (by simp), if_neg (by rw [← h2]; simp),
      if_neg (by rw [← h2]; simp)]
  refine ⟨⟨by rw [hstop], by rw [hstop], by rw [hstop]⟩, ?_, ?_, ?_, ?_, ?_, ?_⟩
  · rw [hrestore]
  · rw [hrestore]
  · rw [hrestore]
  · intro s
    rw [hrestore]
    dsimp only
    rw [mem_foldl_insertVisited]
    simp
  · rw [hrestore]
  · rw [hrestore]

theorem snapshot_roundtrip_witness :
    (mTurnB.started = true ∧
      mTurnB.activePath = pathTo mTurnB.defn mTurnB.current) ∧
    (restore (newMachine mTurnB.defn) (snapshot mTurnB)).err = none ∧
    (restore (newMachine mTurnB.defn) (snapshot mTurnB)).machine.current =
      mTurnB.current ∧
    (restore (newMachine mTurnB.defn) (snapshot mTurnB)).calls = [] :=
  have h := snapshot_roundtrip mTurnB (by decide) (by decide)
    (by
      intro s hs
      fin_cases hs
      decide)
  ⟨⟨by decide, by decide⟩, h.2.1, h.2.2.1, h.2.2.2.2.2.2⟩

/-! ## Claim C1: scope of the exit phase -/

/-- Claim C1 (counterexample): in the hierarchy `P{C}`, `B` with the only
transition keyed at `P`, dispatching `go` bubbles to source `P`, a proper
ancestor of the current leaf `C`; the LCA prefix of `P` and `B` is empty, so
the active-path states below the LCA are `P` and `C` — yet the exit
sequence is `[P]` only: the current leaf `C` is never exited although the
machine then commits to `B`. -/
theorem exit_phase_skips_leaf_counterexample :
    mHier.current = "C" ∧
    mHier.activePath = ["P", "C"] ∧
    (handleEvent mHier { name := "go" }).source = some "P" ∧
    ("P" : StateID) ≠ "C" ∧
    lcaIndex (pathTo dHier "P") (pathTo dHier "B") = 0 ∧
    (handleEvent mHier { name := "go" }).exitSeq = ["P"] ∧
    "C" ∉ (handleEvent mHier { name := "go" }).exitSeq ∧
    (handleEvent mHier { name := "go" }).err = none ∧
    (handleEvent mHier { name := "go" }).machine.current = "B" := by
  decide

/-- Claim C1 (amended): when the bubbled source is a proper ancestor of the
current leaf on a hierarchy-consistent, duplicate-free active path, the
exit phase covers exactly the states of the *source's* root path strictly
below the LCA, deepest first; the current leaf (and every active-path state
strictly below the source) is not exited. -/
theorem exit_phase_scope (m : Machine) (e : Event) (src : StateID) (t : TransitionDef)
    (hs : m.started = true)
    (h2 : m.activePath = pathTo m.defn m.current)
    (hnd : m.activePath.Nodup)
    (hclimb : climbsToRoot m.defn m.current = true)
    (hb : bubble m.defn e m.activePath.reverse = some (src, t))
    (hne : src ≠ m.current) :
    (handleEvent m e).exitSeq =
      ((pathTo m.defn src).drop
        (lcaIndex (pathTo m.defn src) (pathTo m.defn t.tgt))).reverse ∧
    m.current ∉ (handleEvent m e).exitSeq := by
  have hseq := handleEvent_seqs_eq m e hs
  rw [hb] at hseq
  have hexit : (handleEvent m e).exitSeq =
      ((pathTo m.defn src).drop
        (lcaIndex (pathTo m.defn src) (pathTo m.defn t.tgt))).reverse := by
    have := congrArg Prod.fst hseq
    exact this
  obtain ⟨_, _, hmemrev⟩ := bubble_eq_some m.defn e _ src t hb
  have hsrcmem : src ∈ pathTo m.defn m.current := by
    rw [← h2]
    exact List.mem_reverse.mp hmemrev
  have hnd2 : (pathTo m.defn m.current).Nodup := by rw [← h2]; exact hnd
  have hnotmem : m.current ∉ pathTo m.defn src :=
    leaf_not_mem_pathTo_src m.defn m.current src hclimb hnd2 hsrcmem hne
  refine ⟨hexit, ?_⟩
  rw [hexit]
  intro hmem
  exact hnotmem (List.mem_of_mem_drop (List.mem_reverse.mp hmem))

theorem exit_phase_scope_witness :
    (mHier.started = true ∧
      mHier.activePath = pathTo mHier.defn mHier.current ∧
      mHier.activePath.Nodup ∧
      climbsToRoot mHier.defn mHier.current = true ∧
      ("P" : StateID) ≠ mHier.current) ∧
    (handleEvent mHier { name := "go" }).exitSeq =
      ((pathTo mHier.defn "P").drop
        (lcaIndex (pathTo mHier.defn "P") (pathTo mHier.defn "B"))).reverse ∧
    mHier.current ∉ (handleEvent mHier { name := "go" }).exitSeq :=
  have h := exit_phase_scope mHier { name := "go" } "P"
    { key := { src := "P", event := "go" }, tgt := "B" }
    (by decide) (by decide) (by decide) (by decide) rfl (by decide)
  ⟨⟨by decide, by decide, by decide, by decide, by decide⟩, h.1, h.2⟩

/-! ## Claim C8: active-path hierarchy invariant -/

/-- Consecutive elements of a path satisfy the parent relation. -/
def pathConsecutive (d : Definition) : List StateID → Bool
  | [] => true
  | [_] => true
  | a :: b :: rest => (parentOf d b == a) && pathConsecutive d (b :: rest)

theorem pathConsecutive_append_single (d : Definition) :
    ∀ (l : List StateID) (s : StateID), l ≠ [] →
      pathConsecutive d l = true → parentOf d s = l.getLastD "" →
      pathConsecutive d (l ++ [s]) = true := by
  intro l
  induction l with
  | nil => intro s h; exact absurd rfl h
  | cons a t ih =>
    intro s _ hcons hpar
    cases t with
    | nil =>
      simp only [List.getLastD_cons] at hpar
      simp [pathConsecutive, hpar]
    | cons b u =>
      simp only [pathConsecutive, Bool.and_eq_true] at hcons
      have hlast : parentOf d s = (b :: u).getLastD "" := by
        simpa [List.getLastD_cons] using hpar
      have := ih s (by simp) hcons.2 hlast
      simp only [List.cons_append, pathConsecutive, Bool.and_eq_true]
      exact ⟨hcons.1, by simpa using this⟩

theorem pathToAux_consecutive (d : Definition) :
    ∀ (n : Nat) (s : StateID), pathConsecutive d (pathToAux d n s) = true := by
  intro n
  induction n with
  | zero => intro s; rfl
  | succ n ih =>
    intro s
    unfold pathToAux
    split
    · rfl
    · exact pathConsecutive_append_single d _ s (pathToAux_ne_nil d n _) (ih _)
        (pathToAux_getLastD d n _ "").symm

theorem headD_append_of_ne_nil {l r : List StateID} (h : l ≠ []) (x : StateID) :
    (l ++ r).headD x = l.headD x := by
  cases l with
  | nil => exact absurd rfl h
  | cons a t => rfl

theorem pathToAux_head_no_parent (d : Definition) :
    ∀ (n : Nat) (s : StateID), climbsAux d n s = true →
      parentOf d ((pathToAux d n s).headD "") = "" := by
  intro n
  induction n with
  | zero =>
    intro s h
    simp only [climbsAux, decide_eq_true_eq] at h
    simpa [pathToAux]
  | succ n ih =>
    intro s h
    by_cases hp : parentOf d s = ""
    · simp [pathToAux, hp]
    · have hcl : climbsAux d n (parentOf d s) = true := by
        simp only [climbsAux, Bool.or_eq_true, decide_eq_true_eq] at h
        rcases h with h | h
        · exact absurd h hp
        · exact h
      simp only [pathToAux, if_neg hp]
      rw [headD_append_of_ne_nil (pathToAux_ne_nil d n _) ""]
      exact ih _ hcl

theorem buildValidated_initialChild_parent (d : Definition)
    (hv : buildValidated d = true) (s : StateID) (st : StateDef)
    (hf : findState d s = some st) (hnl : st.children.isEmpty = false) :
    parentOf d st.initialChild = s := by
  have hmem : st ∈ d.states := List.mem_of_find?_eq_some hf
  have hid : st.id = s := by
    have := List.find?_some hf
    simpa using this
  unfold buildValidated at hv
  simp only [Bool.and_eq_true, List.all_eq_true] at hv
  obtain ⟨⟨_, _⟩, hstates⟩ := hv
  obtain ⟨hcomp, _⟩ := hstates st hmem
  rw [if_neg (by simp [hnl])] at hcomp
  simp only [Bool.and_eq_true, List.all_eq_true] at hcomp
  obtain ⟨⟨_, hmemc⟩, hkids⟩ := hcomp
  have hicmem : st.initialChild ∈ st.children := by
    simpa using hmemc
  have := hkids st.initialChild hicmem
  unfold parentOf
  rcases hfc : findState d st.initialChild with _ | cst
  · rw [hfc] at this
    simp at this
  · rw [hfc] at this
    simp only [beq_iff_eq] at this
    show cst.parent = s
    rw [this, hid]

theorem descend_consecutive (d : Definition) (hv : buildValidated d = true) :
    ∀ (n : Nat) (s : StateID), pathConsecutive d (s :: descendChain d n s) = true := by
  intro n
  induction n with
  | zero => intro s; rfl
  | succ n ih =>
    intro s
    unfold descendChain
    by_cases hl : isLeafState d s
    · simp [hl]
      rfl
    · rw [if_neg hl]
      have hpar : parentOf d (initialChildOf d s) = s := by
        unfold isLeafState at hl
        rcases hf : findState d s with _ | st
        · exfalso
          apply hl
          unfold childrenOf
          rw [hf]
          rfl
        · have hnl : st.children.isEmpty = false := by
            unfold childrenOf at hl
            rw [hf] at hl
            simpa using hl
          have hic : initialChildOf d s = st.initialChild := by
            unfold initialChildOf
            rw [hf]
          rw [hic]
          exact buildValidated_initialChild_parent d hv s st hf hnl
      have := ih (initialChildOf d s)
      simp only [pathConsecutive, Bool.and_eq_true]
      exact ⟨by simp [hpar], this⟩

theorem restore_char (m : Machine) (snap : Snapshot) :
    ((restore m snap).err ≠ none ∧ (restore m snap).machine = m) ∨
    ((restore m snap).err = none ∧
      (restore m snap).machine.current = snap.current ∧
      (restore m snap).machine.activePath = snap.activePath ∧
      pathTo m.defn snap.current = snap.activePath ∧
      (restore m snap).machine.started = true) := by
  unfold restore
  dsimp only
  split
  · exact Or.inl ⟨by simp, rfl⟩
  · split
    · exact Or.inl ⟨by simp, rfl⟩
    · split
      · exact Or.inl ⟨by simp, rfl⟩
      · split
        · exact Or.inl ⟨by simp, rfl⟩
        · rename_i h4
          push_neg at h4
          exact Or.inr ⟨rfl, rfl, rfl, h4, rfl⟩

theorem restore_success_char (m : Machine) (snap : Snapshot)
    (h : (restore m snap).err = none) :
    (restore m snap).machine.current = snap.current ∧
    (restore m snap).machine.activePath = pathTo m.defn snap.current ∧
    (restore m snap).machine.started = true := by
  rcases restore_char m snap with ⟨hne, _⟩ | ⟨_, hc, hp, heq, hst⟩
  · exact absurd h hne
  · exact ⟨hc, by rw [hp, heq], hst⟩

/-- Claim C8 (counterexample): over the build-valid definition whose
`current` anchor is the nested state `A1`, a successful `start()` yields
`currentPath() = [A1]` whose first element has parent `A` — the claim's
"first element has no parent" fails. -/
theorem active_path_head_counterexample :
    buildValidated dNested = true ∧
    (start (newMachine dNested)).err = none ∧
    (start (newMachine dNested)).machine.activePath = ["A1"] ∧
    parentOf dNested "A1" = "A" := by
  decide

/-- Claim C8 (amended): at every observable point the active path satisfies
the parent relation between consecutive elements — after a successful
`start()` over a build-validated definition, after a successful transition
commit, and after a successful restore; the first element has no parent
after a commit or a restore (with terminating parent chains), and after
`start()` whenever the declared anchor `definition.current` is top-level
(the anchor may legally be nested, in which case the first element keeps
its parent). -/
theorem active_path_hierarchy (m1 m2 m3 : Machine) (e : Event) (snap : Snapshot) :
    (buildValidated m1.defn = true → m1.started = false → (start m1).err = none →
      pathConsecutive m1.defn (start m1).machine.activePath = true ∧
      (parentOf m1.defn m1.defn.current = "" →
        parentOf m1.defn ((start m1).machine.activePath.headD "") = "")) ∧
    ((handleEvent m2 e).err = none →
      pathConsecutive m2.defn (handleEvent m2 e).machine.activePath = true ∧
      (climbsToRoot m2.defn ((handleEvent m2 e).machine.current) = true →
        parentOf m2.defn ((handleEvent m2 e).machine.activePath.headD "") = "")) ∧
    ((restore m3 snap).err = none →
      pathConsecutive m3.defn (restore m3 snap).machine.activePath = true ∧
      (climbsToRoot m3.defn snap.current = true →
        parentOf m3.defn ((restore m3 snap).machine.activePath.headD "") = "")) := by
  refine ⟨?_, ?_, ?_⟩
  · intro hv h0 _
    obtain ⟨_, hp, _, _, _, _⟩ := start_char m1 h0
    constructor
    · rw [hp]
      exact descend_consecutive m1.defn hv m1.defn.states.length m1.defn.current
    · intro hroot
      rw [hp]
      unfold initialDescent
      simpa using hroot
  · intro herr
    have hp := handleEvent_commit m2 e herr
    constructor
    · rw [hp]
      exact pathToAux_consecutive m2.defn _ _
    · intro hc
      rw [hp]
      exact pathToAux_head_no_parent m2.defn _ _ hc
  · intro herr
    obtain ⟨_, hp, _⟩ := restore_success_char m3 snap herr
    constructor
    · rw [hp]
      exact pathToAux_consecutive m3.defn _ _
    · intro hc
      rw [hp]
      exact pathToAux_head_no_parent m3.defn _ _ hc

theorem active_path_hierarchy_witness :
    (buildValidated dHier = true ∧ (newMachine dHier).started = false ∧
      (start (newMachine dHier)).err = none ∧
      pathConsecutive dHier (start (newMachine dHier)).machine.activePath = true) ∧
    ((handleEvent mTurn { name := "coin" }).err = none ∧
      pathConsecutive dTurn (handleEvent mTurn { name := "coin" }).machine.activePath =
        true) ∧
    ((restore (newMachine dTurn) (snapshot mTurnB)).err = none ∧
      parentOf dTurn
        ((restore (newMachine dTurn) (snapshot mTurnB)).machine.activePath.headD "") =
        "") :=
  have h1 := (active_path_hierarchy (newMachine dHier) mTurn (newMachine dTurn)
    { name := "coin" } (snapshot mTurnB)).1 (by decide) (by decide) (by decide)
  have h2 := (active_path_hierarchy (newMachine dHier) mTurn (newMachine dTurn)
    { name := "coin" } (snapshot mTurnB)).2.1 (by decide)
  have h3 := (active_path_hierarchy (newMachine dHier) mTurn (newMachine dTurn)
    { name := "coin" } (snapshot mTurnB)).2.2 (by decide)
  ⟨⟨by decide, by decide, by decide, h1.1⟩, ⟨by decide, h2.1⟩, ⟨by decide, h3.2 (by decide)⟩⟩

/-! ## Claim C3: auto-advance (`Next`) -/

theorem find?_append_first {α : Type} (p : α → Bool) (l1 l2 : List α) (s : α)
    (h1 : ∀ x ∈ l1, p x = false) (hp : p s = true) :
    (l1 ++ s :: l2).find? p = some s := by
  induction l1 with
  | nil => simp [List.find?_cons, hp]
  | cons a t ih =>
    have ha := h1 a (by simp)
    simp only [List.cons_append, List.find?_cons, ha]
    exact ih (fun x hx => h1 x (by simp [hx]))

/-- A state passes the `Next` scan when it has outgoing transitions and
either more than one of them (error), or a single one whose guard admits
the event-less context. -/
def nextCandidate (d : Definition) (s : StateID) : Bool :=
  let outgoing := outgoingTransitions d s
  !outgoing.isEmpty &&
    (outgoing.length > 1 ||
      (match findTransitionByKey d (outgoing.headD { src := "", event := "" }) with
       | some t => guardOk t { name := (outgoing.headD { src := "", event := "" }).event }
       | none => true))

/-- The `Next` scan is the first-match scan for `nextCandidate` over the
reversed active path. -/
theorem nextScan_spec (d : Definition) :
    ∀ l : List StateID,
      nextScan d l =
        (match l.find? (nextCandidate d) with
         | none => NextScan.exhausted
         | some s =>
           if (outgoingTransitions d s).length > 1 then NextScan.multiple
           else NextScan.fire
             ((outgoingTransitions d s).headD { src := "", event := "" })) := by
  intro l
  induction l with
  | nil => rfl
  | cons s rest ih =>
    unfold nextScan
    by_cases hempty : (outgoingTransitions d s).isEmpty
    · have hc : nextCandidate d s = false := by
        unfold nextCandidate
        simp [hempty]
      rw [if_pos hempty, ih]
      simp [List.find?_cons, hc]
    · by_cases hlen : (outgoingTransitions d s).length > 1
      · have hc : nextCandidate d s = true := by
          unfold nextCandidate
          simp [hempty, hlen]
        rw [if_neg (by simp [hempty]), if_pos (by simpa using hlen)]
        simp [List.find?_cons, hc, hlen]
      · set pass : Bool :=
          (match findTransitionByKey d
              ((outgoingTransitions d s).headD { src := "", event := "" }) with
           | some t => guardOk t
               { name := ((outgoingTransitions d s).headD { src := "", event := "" }).event }
           | none => true) with hpassdef
        by_cases hpass : pass = true
        · have hc : nextCandidate d s = true := by
            unfold nextCandidate
            rw [Bool.and_eq_true]
            refine ⟨by simp [hempty], ?_⟩
            rw [Bool.or_eq_true]
            exact Or.inr (by rw [← hpassdef]; exact hpass)
          rw [if_neg (by simp [hempty]), if_neg (by simpa using hlen)]
          rw [if_pos (by rw [← hpassdef]; exact hpass)]
          simp [List.find?_cons, hc, hlen]
        · have hc : nextCandidate d s = false := by
            unfold nextCandidate
            rw [Bool.eq_false_iff]
            intro hcontra
            rw [Bool.and_eq_true, Bool.or_eq_true] at hcontra
            rcases hcontra.2 with h | h
            · exact hlen (by simpa using h)
            · exact hpass (by rw [hpassdef]; exact h)
          rw [if_neg (by simp [hempty]), if_neg (by simpa using hlen)]
          rw [if_neg (by rw [← hpassdef]; exact hpass), ih]
          simp [List.find?_cons, hc]

theorem mem_outgoing (d : Definition) (s : StateID) (tk : TransitionKey)
    (h : tk ∈ outgoingTransitions d s) :
    ∃ t ∈ d.transitions, t.key = tk ∧ t.key.src = s := by
  unfold outgoingTransitions at h
  rw [List.mem_map] at h
  obtain ⟨t, hmem, hkey⟩ := h
  rw [List.mem_filter] at hmem
  exact ⟨t, hmem.1, hkey, by simpa using hmem.2⟩

theorem findTransition_none_of_no_outgoing (d : Definition) (x : StateID) (ev : EventID)
    (h : outgoingTransitions d x = []) : findTransition d x ev = none := by
  rcases hf : findTransition d x ev with _ | t
  · rfl
  · exfalso
    have hmem : t ∈ d.transitions := List.mem_of_find?_eq_some hf
    have hp := List.find?_some hf
    rw [Bool.and_eq_true] at hp
    have hsrc : t.key.src = x := by simpa using hp.1
    have : t.key ∈ outgoingTransitions d x := by
      unfold outgoingTransitions
      rw [List.mem_map]
      exact ⟨t, List.mem_filter.mpr ⟨hmem, by simp [hsrc]⟩, rfl⟩
    rw [h] at this
    simp at this

theorem findTransition_char (d : Definition) (x : StateID) (ev : EventID)
    (t : TransitionDef) (h : findTransition d x ev = some t) :
    t ∈ d.transitions ∧ t.key.src = x ∧ t.key.event = ev ∧
    t.key ∈ outgoingTransitions d x := by
  have hmem : t ∈ d.transitions := List.mem_of_find?_eq_some h
  have hp := List.find?_some h
  rw [Bool.and_eq_true] at hp
  have hsrc : t.key.src = x := by simpa using hp.1
  have hev : t.key.event = ev := by simpa using hp.2
  refine ⟨hmem, hsrc, hev, ?_⟩
  unfold outgoingTransitions
  rw [List.mem_map]
  exact ⟨t, List.mem_filter.mpr ⟨hmem, by simp [hsrc]⟩, rfl⟩

theorem findTransitionByKey_of_mem (d : Definition) (t : TransitionDef)
    (hkeys : (d.transitions.map (fun t2 => t2.key)).Nodup)
    (hmem : t ∈ d.transitions) : findTransitionByKey d t.key = some t := by
  have hsome : (findTransitionByKey d t.key).isSome = true := by
    unfold findTransitionByKey
    rw [List.find?_isSome]
    exact ⟨t, hmem, by simp⟩
  obtain ⟨t2, ht2⟩ := Option.isSome_iff_exists.mp hsome
  have hmem2 : t2 ∈ d.transitions := List.mem_of_find?_eq_some ht2
  have hkey2 : t2.key = t.key := by
    have := List.find?_some ht2
    simpa using this
  have : t2 = t := List.inj_on_of_nodup_map hkeys hmem2 hmem hkey2
  rw [ht2, this]

theorem findTransition_eq_byKey (d : Definition) (s : StateID) (ev : EventID) :
    findTransition d s ev = findTransitionByKey d { src := s, event := ev } := by
  unfold findTransition findTransitionByKey
  congr 1
  funext t
  rw [Bool.eq_iff_iff]
  constructor
  · intro h
    rw [Bool.and_eq_true] at h
    have h1 : t.key.src = s := by simpa using h.1
    have h2 : t.key.event = ev := by simpa using h.2
    have : t.key = { src := s, event := ev } := by
      rcases t with ⟨⟨a, b⟩, _, _, _⟩
      simp only at h1 h2
      simp [h1, h2]
    simp [this]
  · intro h
    have : t.key = { src := s, event := ev } := by simpa using h
    rw [Bool.and_eq_true]
    constructor <;> simp [this]

/-- Claim C3: for a started machine (with the Go map's key uniqueness),
`next()` scans the active path leaf to root: with no scanned state bearing
outgoing transitions that pass the scan, it fails with
`NoAvailableTransition`; if the first such state has more than one outgoing
transition it fails with `MultipleTransitions`; and if it has exactly one,
guard-admitted, `next()` synchronously dispatches that transition's event
and the dispatch selects exactly that state and transition. -/
theorem next_auto_advance (m : Machine)
    (hs : m.started = true)
    (hkeys : (m.defn.transitions.map (fun t => t.key)).Nodup) :
    (m.activePath.reverse.find? (nextCandidate m.defn) = none →
      (next m).err = some MErr.noAvailableTransition ∧ (next m).machine = m) ∧
    (∀ s, m.activePath.reverse.find? (nextCandidate m.defn) = some s →
      (outgoingTransitions m.defn s).length > 1 →
      (next m).err = some MErr.multipleTransitions ∧ (next m).machine = m) ∧
    (∀ s tk, m.activePath.reverse.find? (nextCandidate m.defn) = some s →
      outgoingTransitions m.defn s = [tk] →
      next m = dispatch m { name := tk.event } ∧
      ∃ t, findTransitionByKey m.defn tk = some t ∧
        (handleEvent m { name := tk.event }).source = some s ∧
        (handleEvent m { name := tk.event }).target = some t.tgt) := by
  have hnext : next m =
      (match nextScan m.defn m.activePath.reverse with
       | .multiple => HandleResult.fail m .multipleTransitions none none none [] [] []
       | .exhausted => HandleResult.fail m .noAvailableTransition none none none [] [] []
       | .fire tk => dispatch m { name := tk.event }) := by
    unfold next
    rw [if_neg (by simp [hs])]
  refine ⟨?_, ?_, ?_⟩
  · intro hfind
    rw [hnext, nextScan_spec, hfind]
    exact ⟨rfl, rfl⟩
  · intro s hfind hlen
    rw [hnext, nextScan_spec, hfind]
    dsimp only
    rw [if_pos (by simpa using hlen)]
    exact ⟨rfl, rfl⟩
  · intro s tk hfind hsingle
    have hlen1 : ¬ (outgoingTransitions m.defn s).length > 1 := by
      rw [hsingle]
      simp
    have hhead : (outgoingTransitions m.defn s).headD { src := "", event := "" } = tk := by
      rw [hsingle]
      rfl
    have hfire : next m = dispatch m { name := tk.event } := by
      rw [hnext, nextScan_spec, hfind]
      dsimp only
      rw [if_neg hlen1, hhead]
    -- the candidate at s passes its guard
    have hcand : nextCandidate m.defn s = true := List.find?_some hfind
    obtain ⟨t, htmem, htkey, _⟩ := mem_outgoing m.defn s tk (by rw [hsingle]; simp)
    have hbyKey : findTransitionByKey m.defn tk = some t := by
      rw [← htkey]
      exact findTransitionByKey_of_mem m.defn t hkeys htmem
    have hpass : guardOk t { name := tk.event } = true := by
      unfold nextCandidate at hcand
      rw [Bool.and_eq_true, Bool.or_eq_true] at hcand
      rcases hcand.2 with h | h
      · exact absurd (by simpa using h) hlen1
      · rw [hhead, hbyKey] at h
        exact h
    have htksrc : tk.src = s := by
      obtain ⟨t2, _, hk2, hsrc2⟩ := mem_outgoing m.defn s tk (by rw [hsingle]; simp)
      rw [hk2] at hsrc2
      exact hsrc2
    -- the dispatched event's bubble selects exactly (s, t)
    have hadmits_s : transitionAdmits m.defn s { name := tk.event } = true := by
      unfold transitionAdmits
      have hft : findTransition m.defn s tk.event = some t := by
        rw [findTransition_eq_byKey]
        have : ({ src := s, event := tk.event } : TransitionKey) = tk := by
          rcases tk with ⟨a, b⟩
          simp only at htksrc
          simp [htksrc]
        rw [this]
        exact hbyKey
      rw [show ({ name := tk.event } : Event).name = tk.event from rfl, hft]
      exact hpass
    obtain ⟨hc, l1, l2, hsplit, hl1⟩ := List.find?_eq_some.mp hfind
    have hl1admits : ∀ x ∈ l1, transitionAdmits m.defn x { name := tk.event } = false := by
      intro x hx
      have hcx : nextCandidate m.defn x = false := by
        have := hl1 x hx
        simpa using this
      unfold nextCandidate at hcx
      rcases hempty : (outgoingTransitions m.defn x).isEmpty with _ | _
      · -- some outgoing transitions exist but the scan skipped x:
        -- exactly one, guard-blocked
        rw [Bool.eq_false_iff] at hcx
        have hnot2 : ¬ (outgoingTransitions m.defn x).length > 1 := by
          intro h2
          exact hcx (by simp [hempty, h2])
      -- case with nonempty outgoing handled below
        rcases hft : findTransition m.defn x tk.event with _ | t2
        · unfold transitionAdmits
          rw [show ({ name := tk.event } : Event).name = tk.event from rfl, hft]
        · obtain ⟨ht2mem, ht2src, ht2ev, ht2out⟩ := findTransition_char _ _ _ _ hft
          have hlenx : (outgoingTransitions m.defn x).length = 1 := by
            have hne : (outgoingTransitions m.defn x) ≠ [] := by
              intro hnil
              rw [hnil] at ht2out
              simp at ht2out
            have : 1 ≤ (outgoingTransitions m.defn x).length := by
              cases houtx : outgoingTransitions m.defn x with
              | nil => exact absurd houtx hne
              | cons a b => simp
            omega
          obtain ⟨tk2, htk2⟩ := List.length_eq_one.mp hlenx
          have htk2eq : t2.key = tk2 := by
            rw [htk2] at ht2out
            simpa using ht2out
          have hbyKey2 : findTransitionByKey m.defn tk2 = some t2 := by
            rw [← htk2eq]
            exact findTransitionByKey_of_mem m.defn t2 hkeys ht2mem
          have hguard2 : guardOk t2 { name := tk2.event } = false := by
            rcases hg : guardOk t2 { name := tk2.event } with _ | _
            · rfl
            · exfalso
              apply hcx
              rw [Bool.and_eq_true, Bool.or_eq_true]
              refine ⟨by simp [hempty], Or.inr ?_⟩
              rw [htk2]
              dsimp only [List.headD]
              rw [hbyKey2]
              exact hg
          unfold transitionAdmits
          rw [show ({ name := tk.event } : Event).name = tk.event from rfl, hft]
          have : tk2.event = tk.event := by rw [← htk2eq, ht2ev]
          rw [← this]
          exact hguard2
      · -- no outgoing transitions at all: no keyed transition either
        unfold transitionAdmits
        have hnil : outgoingTransitions m.defn x = [] := by
          rwa [List.isEmpty_iff] at hempty
        rw [show ({ name := tk.event } : Event).name = tk.event from rfl,
          findTransition_none_of_no_outgoing m.defn x tk.event hnil]
    have hbfind : m.activePath.reverse.find?
        (fun s2 => transitionAdmits m.defn s2 { name := tk.event }) = some s := by
      rw [hsplit]
      exact find?_append_first _ l1 l2 s hl1admits hadmits_s
    have hsource : (handleEvent m { name := tk.event }).source = some s := by
      rw [handleEvent_source_eq m _ hs, bubble_fst, hbfind]
    have hbsome := bubble_fst m.defn { name := tk.event } m.activePath.reverse
    rw [hbfind] at hbsome
    obtain ⟨⟨s2, t4⟩, hb4, hs4⟩ := Option.map_eq_some'.mp hbsome
    dsimp only at hs4
    subst hs4
    obtain ⟨hft4, _, _⟩ := bubble_eq_some m.defn _ _ s2 t4 hb4
    have ht4 : t4 = t := by
      rw [findTransition_eq_byKey] at hft4
      have hkeyeq : ({ src := s2, event := tk.event } : TransitionKey) = tk := by
        rcases tk with ⟨a, b⟩
        simp only at htksrc
        simp [htksrc]
      rw [hkeyeq, hbyKey] at hft4
      exact (Option.some_injective _ hft4).symm
    have htarget : (handleEvent m { name := tk.event }).target = some t.tgt := by
      rw [handleEvent_target_eq m _ hs, hb4, ht4]
      rfl
    exact ⟨hfire, t, hbyKey, hsource, htarget⟩

theorem next_auto_advance_witness :
    (mTurn.started = true ∧
      (mTurn.defn.transitions.map (fun t => t.key)).Nodup ∧
      mTurn.activePath.reverse.find? (nextCandidate mTurn.defn) = some "Locked" ∧
      outgoingTransitions mTurn.defn "Locked" =
        [{ src := "Locked", event := "coin" }]) ∧
    next mTurn = dispatch mTurn { name := "coin" } ∧
    (handleEvent mTurn { name := "coin" }).source = some "Locked" :=
  have h := (next_auto_advance mTurn (by decide) (by decide)).2.2 "Locked"
    { src := "Locked", event := "coin" } (by decide) (by decide)
  ⟨⟨by decide, by decide, by decide, by decide⟩, h.1,
    match h.2 with
    | ⟨_, _, hsrc, _⟩ => hsrc⟩

/-! ## Claim C7: Kahn topology correctness

The development works over an abstract edge list `E` and node list `nodes`
and is instantiated with `edgesOf d` and `topoNodes d` at the end. -/

/-- The number of edges into `w` whose source has not been emitted yet: the
value Go's mutable `indeg[w]` holds when `order` has been emitted. -/
def remInto (E : List (StateID × StateID)) (order : List StateID) (w : StateID) : Nat :=
  match E with
  | [] => 0
  | p :: E2 => (if p.2 = w ∧ p.1 ∉ order then 1 else 0) + remInto E2 order w

/-- The number of `v → w` edges. -/
def edgesOut (E : List (StateID × StateID)) (v w : StateID) : Nat :=
  match E with
  | [] => 0
  | p :: E2 => (if p.1 = v ∧ p.2 = w then 1 else 0) + edgesOut E2 v w

theorem length_le_of_nodup_subset {l L : List StateID} (h : l.Nodup)
    (hsub : ∀ x ∈ l, x ∈ L) : l.length ≤ L.length := by
  calc l.length = l.toFinset.card := (List.toFinset_card_of_nodup h).symm
    _ ≤ L.toFinset.card := Finset.card_le_card (by
        intro x hx
        rw [List.mem_toFinset] at hx ⊢
        exact hsub x hx)
    _ ≤ L.length := List.toFinset_card_le L

theorem mem_of_nodup_subset_length {l L : List StateID} (h : l.Nodup)
    (hsub : ∀ x ∈ l, x ∈ L) (hlen : L.length ≤ l.length) : ∀ x ∈ L, x ∈ l := by
  intro x hx
  have hsubf : l.toFinset ⊆ L.toFinset := by
    intro y hy
    rw [List.mem_toFinset] at hy ⊢
    exact hsub y hy
  have hcard : L.toFinset.card ≤ l.toFinset.card := by
    calc L.toFinset.card ≤ L.length := List.toFinset_card_le L
      _ ≤ l.length := hlen
      _ = l.toFinset.card := (List.toFinset_card_of_nodup h).symm
  have heq := Finset.eq_of_subset_of_card_le hsubf hcard
  rw [← List.mem_toFinset, ← heq, List.mem_toFinset] at hx
  exact hx

/-- Emitting `v` removes exactly the edges out of `v` from every remaining
indegree. -/
theorem remInto_append (E : List (StateID × StateID)) (order : List StateID)
    (v w : StateID) (hv : v ∉ order) :
    remInto E (order ++ [v]) w + edgesOut E v w = remInto E order w := by
  induction E with
  | nil => rfl
  | cons p E2 ih =>
    have hstep :
        (if p.2 = w ∧ p.1 ∉ order ++ [v] then 1 else 0) +
          (if p.1 = v ∧ p.2 = w then 1 else 0) =
          (if p.2 = w ∧ p.1 ∉ order then 1 else 0) := by
      by_cases hw : p.2 = w
      · by_cases hp1 : p.1 = v
        · rw [if_neg (fun hc => hc.2 (List.mem_append.mpr (Or.inr (by simp [hp1])))),
            if_pos ⟨hp1, hw⟩, if_pos ⟨hw, by rw [hp1]; exact hv⟩]
        · by_cases ho : p.1 ∈ order
          · rw [if_neg (fun hc => hc.2 (List.mem_append.mpr (Or.inl ho))),
              if_neg (fun hc => hp1 hc.1), if_neg (fun hc => hc.2 ho)]
          · have hnotmem : p.1 ∉ order ++ [v] := by
              intro hmem
              rcases List.mem_append.mp hmem with h | h
              · exact ho h
              · simp only [List.mem_singleton] at h
                exact hp1 h
            rw [if_pos ⟨hw, hnotmem⟩, if_neg (fun hc => hp1 hc.1), if_pos ⟨hw, ho⟩]
      · rw [if_neg (fun hc => hw hc.1), if_neg (fun hc => hw hc.2),
          if_neg (fun hc => hw hc.1)]
    show ((if p.2 = w ∧ p.1 ∉ order ++ [v] then 1 else 0) + remInto E2 (order ++ [v]) w) +
        ((if p.1 = v ∧ p.2 = w then 1 else 0) + edgesOut E2 v w) =
        (if p.2 = w ∧ p.1 ∉ order then 1 else 0) + remInto E2 order w
    omega

theorem edgesOut_le_remInto (E : List (StateID × StateID)) (order : List StateID)
    (v w : StateID) (hv : v ∉ order) :
    edgesOut E v w ≤ remInto E order w := by
  have := remInto_append E order v w hv
  omega

/-- The multiplicity of `w` in the adjacency batch of `v` is the number of
`v → w` edges. -/
theorem adj_count (E : List (StateID × StateID)) (v w : StateID) :
    (adjOf E v).count w = edgesOut E v w := by
  induction E with
  | nil => rfl
  | cons p E2 ih =>
    unfold adjOf at ih
    show (((p :: E2).filter (fun q => q.1 == v)).map (fun q => q.2)).count w =
      (if p.1 = v ∧ p.2 = w then 1 else 0) + edgesOut E2 v w
    rw [List.filter_cons]
    by_cases h1 : p.1 = v
    · rw [if_pos (by simp [h1]), List.map_cons, List.count_cons]
      by_cases h2 : p.2 = w
      · rw [if_pos (show (p.2 == w) = true by simp [h2]),
          if_pos (show p.1 = v ∧ p.2 = w from ⟨h1, h2⟩)]
        omega
      · rw [if_neg (show ¬ (p.2 == w) = true by simp [h2]),
          if_neg (show ¬ (p.1 = v ∧ p.2 = w) from fun hc => h2 hc.2)]
        omega
    · rw [if_neg (by simp [h1]), if_neg (fun hc => h1 hc.1)]
      omega

/-- Members of the adjacency batch of `v` are targets of edges from `v`. -/
theorem mem_adjOf (E : List (StateID × StateID)) (v w : StateID)
    (h : w ∈ adjOf E v) : (v, w) ∈ E := by
  unfold adjOf at h
  rw [List.mem_map] at h
  obtain ⟨p, hp, hsnd⟩ := h
  rw [List.mem_filter] at hp
  have h1 : p.1 = v := by simpa using hp.2
  have : p = (v, w) := by
    rcases p with ⟨a, b⟩
    simp only at h1 hsnd
    simp [h1, hsnd]
  rw [← this]
  exact hp.1

/-- There is an un-emitted edge into `w` exactly when the remaining
indegree is positive. -/
theorem remInto_pos_iff (E : List (StateID × StateID)) (order : List StateID)
    (w : StateID) :
    0 < remInto E order w ↔ ∃ u, (u, w) ∈ E ∧ u ∉ order := by
  induction E with
  | nil => simp [remInto]
  | cons p E2 ih =>
    unfold remInto
    constructor
    · intro h
      by_cases hc : p.2 = w ∧ p.1 ∉ order
      · exact ⟨p.1, by rw [← hc.1]; simp, hc.2⟩
      · rw [if_neg hc] at h
        simp only [Nat.zero_add] at h
        obtain ⟨u, hmem, hu⟩ := ih.mp h
        exact ⟨u, by simp [hmem], hu⟩
    · rintro ⟨u, hmem, hu⟩
      rcases List.mem_cons.mp hmem with heq | hmem2
      · rw [if_pos ⟨by rw [← heq], by rw [← heq]; exact hu⟩]
        omega
      · have := ih.mpr ⟨u, hmem2, hu⟩
        omega

/-- Net effect of one adjacency batch: every target's indegree drops by its
multiplicity in the batch, and a node is pushed exactly when its indegree is
consumed completely (provided the indegree dominates the batch counts, as
the loop invariant guarantees). -/
theorem processTargets_spec :
    ∀ (ws : List StateID) (indeg : StateID → Int) (q : List StateID),
      (∀ x, (ws.count x : Int) ≤ indeg x) →
      (∀ x ∈ q, indeg x = 0) →
      q.Nodup →
      (∀ x, (processTargets indeg q ws).1 x = indeg x - ws.count x) ∧
      (∀ x, x ∈ (processTargets indeg q ws).2 ↔
        x ∈ q ∨ (0 < ws.count x ∧ indeg x = (ws.count x : Int))) ∧
      (processTargets indeg q ws).2.Nodup := by
  intro ws
  induction ws with
  | nil =>
    intro indeg q _ _ hnd
    exact ⟨fun x => by simp [processTargets],
      fun x => by simp [processTargets], hnd⟩
  | cons w ws2 ih =>
    intro indeg q hgw hq0 hnd
    have hcount_w : (w :: ws2).count w = ws2.count w + 1 := by
      rw [List.count_cons]
      simp
    have hcount_ne : ∀ x, x ≠ w → (w :: ws2).count x = ws2.count x := by
      intro x hx
      rw [List.count_cons]
      simp [Ne.symm hx]
    have hiw1 : (1 : Int) ≤ indeg w := by
      have h1 := hgw w
      rw [hcount_w] at h1
      have h2 : (0 : Int) ≤ (ws2.count w : Int) := Int.natCast_nonneg _
      push_cast at h1
      omega
    have hwq : w ∉ q := by
      intro hmem
      have := hq0 w hmem
      omega
    have hpt : processTargets indeg q (w :: ws2) =
        processTargets (fun x => if x = w then indeg x - 1 else indeg x)
          (if (if w = w then indeg w - 1 else indeg w) = 0 then w :: q else q) ws2 := rfl
    have hi2self : (if w = w then indeg w - 1 else indeg w) = indeg w - 1 := by simp
    rw [hpt, hi2self]
    have hgw2 : ∀ x, (ws2.count x : Int) ≤ (if x = w then indeg x - 1 else indeg x) := by
      intro x
      by_cases hx : x = w
      · subst hx
        have hred : (if x = x then indeg x - 1 else indeg x) = indeg x - 1 := by simp
        rw [hred]
        have h6 := hgw x
        rw [hcount_w] at h6
        push_cast at h6 ⊢
        omega
      · rw [if_neg hx]
        have h6 := hgw x
        rw [hcount_ne x hx] at h6
        exact h6
    by_cases hpush : indeg w - 1 = 0
    · rw [if_pos hpush]
      have hq02 : ∀ x ∈ w :: q, (if x = w then indeg x - 1 else indeg x) = 0 := by
        intro x hx
        rcases List.mem_cons.mp hx with rfl | hx2
        · simp [hpush]
        · have hx0 := hq0 x hx2
          have hxw : x ≠ w := by
            intro hc
            subst hc
            exact hwq hx2
          rw [if_neg hxw]
          exact hx0
      have hnd2 : (w :: q).Nodup := List.nodup_cons.mpr ⟨hwq, hnd⟩
      obtain ⟨ih1, ih2, ih3⟩ := ih _ (w :: q) hgw2 hq02 hnd2
      refine ⟨?_, ?_, ih3⟩
      · intro x
        rw [ih1 x]
        by_cases hx : x = w
        · subst hx
          have hred : (if x = x then indeg x - 1 else indeg x) = indeg x - 1 := by simp
          rw [hcount_w, hred]
          push_cast
          omega
        · rw [hcount_ne x hx, if_neg hx]
      · intro x
        rw [ih2 x]
        by_cases hx : x = w
        · subst hx
          have hred : (if x = x then indeg x - 1 else indeg x) = indeg x - 1 := by simp
          rw [hcount_w, hred]
          have h5 := hgw2 x
          rw [hred] at h5
          simp only [List.mem_cons]
          constructor
          · intro _
            right
            push_cast at h5 ⊢
            omega
          · intro _
            exact Or.inl (Or.inl trivial)
        · rw [hcount_ne x hx]
          simp only [List.mem_cons, if_neg hx]
          constructor
          · rintro (h | h)
            · rcases h with rfl | h2
              · exact absurd rfl hx
              · exact Or.inl h2
            · exact Or.inr h
          · rintro (h | h)
            · exact Or.inl (Or.inr h)
            · exact Or.inr h
    · rw [if_neg hpush]
      have hq02 : ∀ x ∈ q, (if x = w then indeg x - 1 else indeg x) = 0 := by
        intro x hx
        have hx0 := hq0 x hx
        have hxw : x ≠ w := by
          intro hc
          subst hc
          exact hwq hx
        rw [if_neg hxw]
        exact hx0
      obtain ⟨ih1, ih2, ih3⟩ := ih _ q hgw2 hq02 hnd
      refine ⟨?_, ?_, ih3⟩
      · intro x
        rw [ih1 x]
        by_cases hx : x = w
        · subst hx
          have hred : (if x = x then indeg x - 1 else indeg x) = indeg x - 1 := by simp
          rw [hcount_w, hred]
          push_cast
          omega
        · rw [hcount_ne x hx, if_neg hx]
      · intro x
        rw [ih2 x]
        by_cases hx : x = w
        · subst hx
          have hred : (if x = x then indeg x - 1 else indeg x) = indeg x - 1 := by simp
          rw [hcount_w, hred]
          constructor
          · rintro (h | h)
            · exact Or.inl h
            · right
              push_cast at h ⊢
              omega
          · rintro (h | h)
            · exact Or.inl h
            · right
              push_cast at h ⊢
              omega
        · rw [hcount_ne x hx]
          simp only [if_neg hx]

theorem indexOf_append_self {l : List StateID} {v : StateID} (h : v ∉ l) :
    (l ++ [v]).indexOf v = l.length := by
  induction l with
  | nil => simp
  | cons a t ih =>
    have hav : ¬ (a == v) = true := by
      simp only [beq_iff_eq]
      intro hc
      exact h (by simp [hc])
    simp only [List.cons_append, List.indexOf_cons, hav, cond_false, List.length_cons]
    rw [ih (fun hc => h (by simp [hc]))]

/-- The Kahn loop invariant, relative to the edge list and the node list. -/
structure KahnInv (E : List (StateID × StateID)) (nodes : List StateID)
    (st : KahnState) : Prop where
  nodup : (st.order ++ st.q).Nodup
  subset : ∀ x ∈ st.order ++ st.q, x ∈ nodes
  indeg_eq : ∀ w, st.indeg w = (remInto E st.order w : Int)
  q_zero : ∀ w ∈ st.q, remInto E st.order w = 0
  edge_order : ∀ u w, (u, w) ∈ E → w ∈ st.order →
    u ∈ st.order ∧ st.order.indexOf u < st.order.indexOf w
  fresh_pos : ∀ w ∈ nodes, w ∉ st.order ++ st.q → remInto E st.order w ≠ 0

theorem kahn_step (E : List (StateID × StateID)) (nodes : List StateID)
    (htgt : ∀ p ∈ E, p.2 ∈ nodes)
    (st : KahnState) (v : StateID) (rest : List StateID)
    (hq : st.q = v :: rest) (hinv : KahnInv E nodes st) :
    KahnInv E nodes
      { order := st.order ++ [v],
        q := (processTargets st.indeg rest (adjOf E v)).2,
        indeg := (processTargets st.indeg rest (adjOf E v)).1 } := by
  obtain ⟨hnd, hsub, hideq, hqz, heo, hfp⟩ := hinv
  rw [hq] at hnd hsub hqz
  have hvq : v ∈ st.q := by rw [hq]; simp
  have hdisj := List.disjoint_of_nodup_append hnd
  have hvorder : v ∉ st.order := fun hc => hdisj hc (by simp)
  have hordnd : st.order.Nodup := List.Nodup.of_append_left hnd
  have hqnd : (v :: rest).Nodup := List.Nodup.of_append_right hnd
  have hvrest : v ∉ rest := (List.nodup_cons.mp hqnd).1
  have hrestnd : rest.Nodup := (List.nodup_cons.mp hqnd).2
  have hrem2 : ∀ x, remInto E (st.order ++ [v]) x + edgesOut E v x = remInto E st.order x :=
    fun x => remInto_append E st.order v x hvorder
  have hgw : ∀ x, (((adjOf E v).count x : Nat) : Int) ≤ st.indeg x := by
    intro x
    rw [hideq x, adj_count]
    have := hrem2 x
    omega
  have hq0 : ∀ x ∈ rest, st.indeg x = 0 := by
    intro x hx
    rw [hideq x]
    have := hqz x (by simp [hx])
    simp [this]
  obtain ⟨s1, s2, s3⟩ := processTargets_spec (adjOf E v) st.indeg rest hgw hq0 hrestnd
  have hrem0v : remInto E st.order v = 0 := hqz v (by simp)
  have horder2nd : (st.order ++ [v]).Nodup := by
    refine List.Nodup.append hordnd (List.nodup_singleton v) ?_
    intro x hx hy
    rw [List.mem_singleton.mp hy] at hx
    exact hvorder hx
  refine ⟨?_, ?_, ?_, ?_, ?_, ?_⟩
  -- nodup
  case _ =>
    refine List.Nodup.append horder2nd s3 ?_
    intro x hx2 hxq
    rcases List.mem_append.mp hx2 with hxo | hxv
    · rcases (s2 x).mp hxq with h | ⟨hcnt, _⟩
      · exact hdisj hxo (by simp [h])
      · have hedge : (v, x) ∈ E := mem_adjOf E v x (List.count_pos_iff.mp hcnt)
        exact hvorder (heo v x hedge hxo).1
    · have hxv2 : x = v := List.mem_singleton.mp hxv
      subst hxv2
      rcases (s2 x).mp hxq with h | ⟨hcnt, hdeg⟩
      · exact hvrest h
      · rw [hideq x, hrem0v] at hdeg
        rw [adj_count] at hcnt hdeg
        omega
  -- subset
  case _ =>
    intro x hx
    rcases List.mem_append.mp hx with hx2 | hxq
    · rcases List.mem_append.mp hx2 with hxo | hxv
      · exact hsub x (by simp [hxo])
      · rw [List.mem_singleton.mp hxv]
        exact hsub v (by simp)
    · rcases (s2 x).mp hxq with h | ⟨hcnt, _⟩
      · exact hsub x (by simp [h])
      · exact htgt (v, x) (mem_adjOf E v x (List.count_pos_iff.mp hcnt))
  -- indeg_eq
  case _ =>
    dsimp only
    intro w
    rw [s1 w, hideq w, adj_count]
    have := hrem2 w
    omega
  -- q_zero
  case _ =>
    dsimp only
    intro w hw
    rcases (s2 w).mp hw with h | ⟨hcnt, hdeg⟩
    · have h0 := hqz w (by simp [h])
      have := hrem2 w
      omega
    · rw [hideq w, adj_count] at hdeg
      have := hrem2 w
      omega
  -- edge_order
  case _ =>
    dsimp only
    intro u w hedge hw
    rcases List.mem_append.mp hw with hwo | hwv
    · obtain ⟨hu, hlt⟩ := heo u w hedge hwo
      rw [List.indexOf_append_of_mem hu, List.indexOf_append_of_mem hwo]
      exact ⟨by simp [hu], hlt⟩
    · have hwv2 : w = v := List.mem_singleton.mp hwv
      subst hwv2
      have hu : u ∈ st.order := by
        by_contra hc
        have : 0 < remInto E st.order w := (remInto_pos_iff E st.order w).mpr ⟨u, hedge, hc⟩
        omega
      refine ⟨by simp [hu], ?_⟩
      rw [List.indexOf_append_of_mem hu, indexOf_append_self hvorder]
      exact List.indexOf_lt_length.mpr hu
  -- fresh_pos
  case _ =>
    dsimp only
    intro w hwn hwnot
    intro hzero
    have hsum := hrem2 w
    have hout : edgesOut E v w = remInto E st.order w := by omega
    by_cases hek : 0 < edgesOut E v w
    · have hcnt : 0 < (adjOf E v).count w := by
        rw [adj_count]
        exact hek
      have hdeg : st.indeg w = ((adjOf E v).count w : Int) := by
        rw [hideq w, adj_count]
        omega
      have : w ∈ (processTargets st.indeg rest (adjOf E v)).2 :=
        (s2 w).mpr (Or.inr ⟨hcnt, hdeg⟩)
      exact hwnot (by simp [this])
    · have hrem0 : remInto E st.order w = 0 := by omega
      have hwoq : w ∉ st.order ++ st.q := by
        intro hc
        rcases List.mem_append.mp hc with hwo | hwq2
        · exact hwnot (by simp [hwo])
        · rw [hq] at hwq2
          rcases List.mem_cons.mp hwq2 with rfl | hwr
          · exact hwnot (by simp)
          · have : w ∈ (processTargets st.indeg rest (adjOf E v)).2 :=
              (s2 w).mpr (Or.inl hwr)
            exact hwnot (by simp [this])
      exact hfp w hwn hwoq hrem0

/-- With enough fuel the Kahn loop drains the stack and preserves the
invariant. -/
theorem kahn_loop (E : List (StateID × StateID)) (nodes : List StateID)
    (htgt : ∀ p ∈ E, p.2 ∈ nodes) :
    ∀ (fuel : Nat) (st : KahnState), KahnInv E nodes st →
      nodes.length ≤ st.order.length + fuel →
      KahnInv E nodes (kahnLoop (adjOf E) fuel st) ∧
        (kahnLoop (adjOf E) fuel st).q = [] := by
  intro fuel
  induction fuel with
  | zero =>
    intro st hinv hfuel
    have hlen := length_le_of_nodup_subset hinv.nodup hinv.subset
    rw [List.length_append] at hlen
    have hq0 : st.q = [] := List.length_eq_zero.mp (by omega)
    exact ⟨hinv, hq0⟩
  | succ fuel ih =>
    intro st hinv hfuel
    rcases hq : st.q with _ | ⟨v, rest⟩
    · have hred : kahnLoop (adjOf E) (fuel + 1) st = st := by
        unfold kahnLoop
        rw [hq]
      rw [hred]
      exact ⟨hinv, hq⟩
    · have hinv2 := kahn_step E nodes htgt st v rest hq hinv
      have hred : kahnLoop (adjOf E) (fuel + 1) st =
          kahnLoop (adjOf E) fuel
            { order := st.order ++ [v],
              q := (processTargets st.indeg rest (adjOf E v)).2,
              indeg := (processTargets st.indeg rest (adjOf E v)).1 } := by
        conv_lhs => rw [kahnLoop, hq]
      rw [hred]
      refine ih _ hinv2 ?_
      dsimp only
      rw [List.length_append]
      simp only [List.length_singleton]
      omega

/-- With no node emitted, the remaining indegree is the initial one. -/
theorem remInto_nil_order (E : List (StateID × StateID)) (w : StateID) :
    remInto E [] w = (E.filter (fun p => p.2 == w)).length := by
  induction E with
  | nil => rfl
  | cons p E2 ih =>
    show (if p.2 = w ∧ p.1 ∉ ([] : List StateID) then 1 else 0) + remInto E2 [] w = _
    rw [List.filter_cons]
    by_cases h : p.2 = w
    · rw [if_pos (show p.2 = w ∧ p.1 ∉ ([] : List StateID) from ⟨h, by simp⟩),
        if_pos (show (p.2 == w) = true by simp [h]), List.length_cons, ih]
      omega
    · rw [if_neg (show ¬ (p.2 = w ∧ p.1 ∉ ([] : List StateID)) from fun hc => h hc.1),
        if_neg (show ¬ (p.2 == w) = true by simp [h]), ih]
      omega

/-- The seeded state satisfies the Kahn invariant. -/
theorem kahn_init (E : List (StateID × StateID)) (nodes : List StateID)
    (hnd : nodes.Nodup) :
    KahnInv E nodes { order := [], q := kahnSeed E nodes, indeg := indegInit E } := by
  have hmemseed : ∀ w, w ∈ kahnSeed E nodes ↔ w ∈ nodes ∧ indegInit E w = 0 := by
    intro w
    unfold kahnSeed
    rw [List.mem_reverse, List.mem_filter]
    simp
  have hinitrem : ∀ w, indegInit E w = (remInto E [] w : Int) := by
    intro w
    rw [remInto_nil_order]
    rfl
  refine ⟨?_, ?_, ?_, ?_, ?_, ?_⟩
  · rw [List.nil_append]
    unfold kahnSeed
    rw [List.nodup_reverse]
    exact List.Nodup.filter _ hnd
  · intro x hx
    rw [List.nil_append] at hx
    exact ((hmemseed x).mp hx).1
  · intro w
    exact hinitrem w
  · intro w hw
    have h0 := ((hmemseed w).mp hw).2
    rw [hinitrem w] at h0
    exact_mod_cast h0
  · intro u w _ hw
    exact absurd hw (List.not_mem_nil w)
  · intro w hwn hwnot h0
    rw [List.nil_append] at hwnot
    refine hwnot ((hmemseed w).mpr ⟨hwn, ?_⟩)
    rw [hinitrem w, h0]
    rfl

/-- A foldl that only appends already-present targets is the identity. -/
theorem foldl_tgt_noop (ts : List TransitionDef) :
    ∀ acc : List StateID, (∀ t ∈ ts, t.tgt ∈ acc) →
      ts.foldl (fun acc t => if t.tgt ∈ acc then acc else acc ++ [t.tgt]) acc = acc := by
  induction ts with
  | nil =>
    intro acc _
    rfl
  | cons t ts ih =>
    intro acc h
    rw [List.foldl_cons, if_pos (h t (by simp))]
    exact ih acc (fun u hu => h u (by simp [hu]))

/-- When the builder guarantees every transition target is a declared state,
the Kahn node list is exactly the declared state ids. -/
theorem topoNodes_eq (d : Definition)
    (htgt : ∀ t ∈ d.transitions, t.tgt ∈ d.states.map (fun st => st.id)) :
    topoNodes d = d.states.map (fun st => st.id) := by
  unfold topoNodes
  exact foldl_tgt_noop d.transitions _ htgt

/-- Emitted orders are topological: positions increase along any path. -/
theorem edgePath_order_lt (E : List (StateID × StateID)) (order : List StateID)
    (heo : ∀ u w, (u, w) ∈ E → w ∈ order →
      u ∈ order ∧ order.indexOf u < order.indexOf w) :
    ∀ u w, EdgePath E u w → w ∈ order →
      u ∈ order ∧ order.indexOf u < order.indexOf w := by
  intro u w hp
  induction hp with
  | single h =>
    exact fun hw => heo _ _ h hw
  | tail _ h ih =>
    intro hw
    obtain ⟨hv, hlt⟩ := heo _ _ h hw
    obtain ⟨hu, hlt2⟩ := ih hv
    exact ⟨hu, lt_trans hlt2 hlt⟩

/-- The endpoint of a non-empty path is some edge target. -/
theorem edgePath_tgt_mem (E : List (StateID × StateID)) {u w : StateID}
    (h : EdgePath E u w) : ∃ v, (v, w) ∈ E := by
  cases h with
  | single h => exact ⟨_, h⟩
  | tail _ h => exact ⟨_, h⟩

/-- A finite nonempty vertex set in which every vertex has an in-neighbour
inside the set contains a directed cycle. -/
theorem exists_cycle_of_no_source (E : List (StateID × StateID)) (R : List StateID)
    (hne : R ≠ []) (hstep : ∀ w ∈ R, ∃ u, u ∈ R ∧ (u, w) ∈ E) :
    ∃ s, EdgePath E s s := by
  classical
  have hstep2 : ∀ w : {x // x ∈ R}, ∃ u : {x // x ∈ R}, (u.1, w.1) ∈ E := by
    rintro ⟨w, hw⟩
    obtain ⟨u, hu, he⟩ := hstep w hw
    exact ⟨⟨u, hu⟩, he⟩
  choose g hg using hstep2
  have key : ∀ (k : Nat) (w : {x // x ∈ R}), EdgePath E (g^[k + 1] w).1 w.1 := by
    intro k
    induction k with
    | zero =>
      intro w
      have h0 : g^[0 + 1] w = g w := by
        rw [Function.iterate_succ_apply, Function.iterate_zero_apply]
      rw [h0]
      exact EdgePath.single (hg w)
    | succ k ih =>
      intro w
      have h2 : EdgePath E (g^[k + 1] (g w)).1 w.1 := EdgePath.tail (ih (g w)) (hg w)
      have h3 : g^[k + 1 + 1] w = g^[k + 1] (g w) := Function.iterate_succ_apply g (k + 1) w
      rw [h3]
      exact h2
  obtain ⟨w0, hw0⟩ := List.exists_mem_of_ne_nil R hne
  have x0 : {x // x ∈ R} := ⟨w0, hw0⟩
  have hmap : ∀ i ∈ Finset.range (R.length + 1), (g^[i] x0).1 ∈ R.toFinset :=
    fun i _ => List.mem_toFinset.mpr (g^[i] x0).2
  have hcard : R.toFinset.card < (Finset.range (R.length + 1)).card := by
    rw [Finset.card_range]
    exact Nat.lt_succ_of_le (List.toFinset_card_le R)
  obtain ⟨i, hi, j, hj, hij, hfeq⟩ :=
    Finset.exists_ne_map_eq_of_card_lt_of_maps_to hcard hmap
  have hfeq2 : (g^[i] x0).1 = (g^[j] x0).1 := hfeq
  rcases Nat.lt_or_ge i j with hlt | hge
  · obtain ⟨k, hk⟩ : ∃ k, j = k + 1 + i := ⟨j - i - 1, by omega⟩
    have hpath := key k (g^[i] x0)
    have hiter : g^[k + 1] (g^[i] x0) = g^[j] x0 := by
      rw [← Function.iterate_add_apply, ← hk]
    rw [hiter, ← hfeq2] at hpath
    exact ⟨(g^[i] x0).1, hpath⟩
  · have hlt2 : j < i := Nat.lt_of_le_of_ne hge (fun h => hij h.symm)
    obtain ⟨k, hk⟩ : ∃ k, i = k + 1 + j := ⟨i - j - 1, by omega⟩
    have hpath := key k (g^[j] x0)
    have hiter : g^[k + 1] (g^[j] x0) = g^[i] x0 := by
      rw [← Function.iterate_add_apply, ← hk]
    rw [hiter, hfeq2] at hpath
    exact ⟨(g^[j] x0).1, hpath⟩

/-- C7: over a definition whose builder invariants hold (state ids are
distinct and every transition endpoint is a declared state),
`ComputeTopology` succeeds exactly when the transition graph is acyclic,
and on success every transition's source precedes its target in the
emitted order. -/
theorem computeTopology_correct (d : Definition)
    (hnodup : (d.states.map (fun st => st.id)).Nodup)
    (hsrc : ∀ t ∈ d.transitions, t.key.src ∈ d.states.map (fun st => st.id))
    (htgt : ∀ t ∈ d.transitions, t.tgt ∈ d.states.map (fun st => st.id)) :
    ((∃ order, computeTopology d = some order) ↔ AcyclicDef d) ∧
      ∀ order, computeTopology d = some order →
        ∀ t ∈ d.transitions, order.indexOf t.key.src < order.indexOf t.tgt := by
  have hnodes : topoNodes d = d.states.map (fun st => st.id) := topoNodes_eq d htgt
  have hEsrc : ∀ p ∈ edgesOf d, p.1 ∈ topoNodes d := by
    intro p hp
    rw [hnodes]
    unfold edgesOf at hp
    rw [List.mem_map] at hp
    obtain ⟨t, ht, rfl⟩ := hp
    exact hsrc t ht
  have hEtgt : ∀ p ∈ edgesOf d, p.2 ∈ topoNodes d := by
    intro p hp
    rw [hnodes]
    unfold edgesOf at hp
    rw [List.mem_map] at hp
    obtain ⟨t, ht, rfl⟩ := hp
    exact htgt t ht
  have hinit := kahn_init (edgesOf d) (topoNodes d) (by rw [hnodes]; exact hnodup)
  obtain ⟨hfin, hfq⟩ := kahn_loop (edgesOf d) (topoNodes d) hEtgt (topoNodes d).length
    { order := [], q := kahnSeed (edgesOf d) (topoNodes d), indeg := indegInit (edgesOf d) }
    hinit (by simp)
  have hct : computeTopology d =
      if (kahnLoop (adjOf (edgesOf d)) (topoNodes d).length
            { order := [], q := kahnSeed (edgesOf d) (topoNodes d),
              indeg := indegInit (edgesOf d) }).order.length = (topoNodes d).length
      then some (kahnLoop (adjOf (edgesOf d)) (topoNodes d).length
            { order := [], q := kahnSeed (edgesOf d) (topoNodes d),
              indeg := indegInit (edgesOf d) }).order
      else none := rfl
  generalize hgen : kahnLoop (adjOf (edgesOf d)) (topoNodes d).length
      { order := [], q := kahnSeed (edgesOf d) (topoNodes d),
        indeg := indegInit (edgesOf d) } = final at hfin hfq hct
  have hordnd : final.order.Nodup := by
    have h := hfin.nodup
    rw [hfq, List.append_nil] at h
    exact h
  have hordsub : ∀ x ∈ final.order, x ∈ topoNodes d := by
    intro x hx
    exact hfin.subset x (by simp [hx])
  by_cases hsucc : final.order.length = (topoNodes d).length
  · have hall := mem_of_nodup_subset_length hordnd hordsub (le_of_eq hsucc.symm)
    have hacyc : AcyclicDef d := by
      intro s hcyc
      obtain ⟨v, hv⟩ := edgePath_tgt_mem (edgesOf d) hcyc
      have hs : s ∈ final.order := hall s (hEtgt (v, s) hv)
      obtain ⟨_, hlt⟩ :=
        edgePath_order_lt (edgesOf d) final.order hfin.edge_order s s hcyc hs
      omega
    refine ⟨⟨fun _ => hacyc, fun _ => ⟨final.order, by rw [hct, if_pos hsucc]⟩⟩, ?_⟩
    intro order horder t ht
    rw [hct, if_pos hsucc] at horder
    have heq : final.order = order := Option.some.inj horder
    subst heq
    have hedge : (t.key.src, t.tgt) ∈ edgesOf d := by
      unfold edgesOf
      exact List.mem_map.mpr ⟨t, ht, rfl⟩
    have htg : t.tgt ∈ final.order := hall t.tgt (by rw [hnodes]; exact htgt t ht)
    exact (hfin.edge_order _ _ hedge htg).2
  · have hlen := length_le_of_nodup_subset hordnd hordsub
    have hlt : final.order.length < (topoNodes d).length := lt_of_le_of_ne hlen hsucc
    have hRstep : ∀ w ∈ (topoNodes d).filter (fun x => x ∉ final.order),
        ∃ u, u ∈ (topoNodes d).filter (fun x => x ∉ final.order) ∧
          (u, w) ∈ edgesOf d := by
      intro w hw
      rw [List.mem_filter] at hw
      obtain ⟨hwn, hwno⟩ := hw
      have hwno2 : w ∉ final.order := by simpa using hwno
      have hwnot : w ∉ final.order ++ final.q := by
        rw [hfq, List.append_nil]
        exact hwno2
      have hpos : 0 < remInto (edgesOf d) final.order w :=
        Nat.pos_of_ne_zero (hfin.fresh_pos w hwn hwnot)
      obtain ⟨u, hue, huo⟩ := (remInto_pos_iff (edgesOf d) final.order w).mp hpos
      refine ⟨u, ?_, hue⟩
      rw [List.mem_filter]
      exact ⟨hEsrc (u, w) hue, by simpa using huo⟩
    have hRne : (topoNodes d).filter (fun x => x ∉ final.order) ≠ [] := by
      intro hnil
      have hallord : ∀ x ∈ topoNodes d, x ∈ final.order := by
        intro x hx
        by_contra hc
        have : x ∈ (topoNodes d).filter (fun x => x ∉ final.order) := by
          rw [List.mem_filter]
          exact ⟨hx, by simpa using hc⟩
        rw [hnil] at this
        exact List.not_mem_nil x this
      have hndn : (topoNodes d).Nodup := by
        rw [hnodes]
        exact hnodup
      have := length_le_of_nodup_subset hndn hallord
      omega
    obtain ⟨s, hcyc⟩ :=
      exists_cycle_of_no_source (edgesOf d)
        ((topoNodes d).filter (fun x => x ∉ final.order)) hRne hRstep
    constructor
    · constructor
      · rintro ⟨order, horder⟩
        rw [hct, if_neg hsucc] at horder
        exact absurd horder (by simp)
      · intro hac
        exact absurd hcyc (hac s)
    · intro order horder
      rw [hct, if_neg hsucc] at horder
      exact absurd horder (by simp)

theorem computeTopology_correct_witness :
    (((∃ order, computeTopology dDag = some order) ↔ AcyclicDef dDag) ∧
      ∀ order, computeTopology dDag = some order →
        ∀ t ∈ dDag.transitions,
          order.indexOf t.key.src < order.indexOf t.tgt) :=
  computeTopology_correct dDag (by decide) (by decide) (by decide)

end Rfsm
